import Mathlib

/-!
A shallow embedding of point-cloud-utils, `src/sample.cpp`.

`sample.cpp` binds three operations to Python: `poisson_disk_sample`,
`cluster_vertices` and `random_sample`.  Each one copies the caller's arrays
into a VCG mesh (`vcg_mesh_from_vf` / `vcg_mesh_from_v`), calls one VCG
algorithm and copies the resulting mesh back into an array (`vcg_mesh_to_v`).

Conventions of the embedding.

* A dense `#V x 3` array of `float` or `double` is a list of triples of
  rationals (the exact values of its finite entries); a dense `#F x 3` array of
  `int32`/`int64` is a list of triples of integers.
* `MyVertex` is declared with `vertex::Coord3f`: every mesh, the output meshes
  included, stores single-precision coordinates.  Storing a `double` into a
  vertex is the C++ conversion `double -> float`, embedded as `narrowToFloat`
  (round to nearest, ties to even, 24 significant bits, gradual underflow).
* Infinities and NaN are not values of the embedding.  A finite `double` of
  magnitude `2^128 - 2^103` or more converts to an infinite `float`;
  `InFloatRange` is the range below that bound, and every statement that
  depends on the value of a converted coordinate is made for arrays whose
  entries are `InFloatRange`.
* Vertex pointers are positions in the mesh's vertex vector.
* `Outcome` separates a reported failure (`fail`) from C++ undefined behaviour
  (`undefined`), such as an unchecked out-of-range `std::vector::operator[]`.
* The VCG algorithms themselves (`PoissonDiskPruning`, `Clustering`,
  `VertexUniform`, `Allocator`, `UpdateBounding`) are not part of
  `sample.cpp`; they are modelled from the specification, in exact arithmetic,
  and every such definition says so.  A position they compute and store into a
  mesh is converted to `float` like any other (`storeCoord`).
* `poisson_disk_sample_with` and `cluster_vertices_with` are the two source
  functions with the VCG routines they call left as parameters; what is proved
  of them holds whatever those routines do.
-/

namespace PCU

/-! ## Scalars and the `double -> float` conversion -/

/-- Nearest natural number to `a / d`, ties to the even neighbour. -/
def roundHalfEvenDiv (a d : ℕ) : ℕ :=
  let q := a / d
  let r := a % d
  if 2 * r < d then q else if d < 2 * r then q + 1 else if q % 2 = 0 then q else q + 1

/-- Magnitude of the single-precision value nearest to `num / den`, counted in
units of `2 ^ (-149)` (the smallest positive `float`).  Below `2 ^ 24` units the
spacing of `float` values is one unit; from there on it is `2 ^ s` units, with
`s` chosen so that 24 significant bits remain. -/
def floatUnits (num den : ℕ) : ℕ :=
  let a := num * 2 ^ 149
  let n := a / den
  let s := if n < 2 ^ 24 then 0 else Nat.log2 n - 23
  roundHalfEvenDiv a (den * 2 ^ s) * 2 ^ s

/-- The magnitudes, in units of `2 ^ (-149)`, that a `float` can hold when the
exponent is unbounded: at most 24 significant bits. -/
def OnFloatGrid (U : ℕ) : Prop := U < 2 ^ 24 ∨ 2 ^ (Nat.log2 U - 23) ∣ U

/-- The finite values that convert to a finite `float`: magnitude below
`FLT_MAX` plus half a unit in the last place, `2^128 - 2^103`.  At or beyond
that bound the conversion overflows to an infinity. -/
def InFloatRange (x : ℚ) : Prop := |x| < 2 ^ 128 - 2 ^ 103

instance (x : ℚ) : Decidable (InFloatRange x) := by
  unfold InFloatRange
  infer_instance

/-- The C++ conversion to `float` of a finite `double` (or `float`) value that
is `InFloatRange`: the nearest `float`, ties to even.  Outside that range the
conversion gives an infinity, which is not a value of the embedding; there the
function continues the rounding with an unbounded exponent and does not
describe the conversion. -/
def narrowToFloat (x : ℚ) : ℚ :=
  let mag : ℚ := (floatUnits x.num.natAbs x.den : ℚ) / 2 ^ 149
  if x < 0 then -mag else mag

/-- The finite values a `float` holds exactly: in range, and left alone by the
conversion. -/
def IsFloat (x : ℚ) : Prop := InFloatRange x ∧ narrowToFloat x = x

instance (x : ℚ) : Decidable (IsFloat x) := by
  unfold IsFloat
  infer_instance

/-- Dense `#V x 3` array of floating-point coordinates (`dense_f32`/`dense_f64`). -/
abbrev MatrixV := List (ℚ × ℚ × ℚ)

/-- Dense `#F x 3` array of integer indices (`dense_i32`/`dense_i64`). -/
abbrev MatrixF := List (ℤ × ℤ × ℤ)

/-- Every entry of the array converts to a finite `float`. -/
def AllInFloatRange (V : MatrixV) : Prop :=
  ∀ r ∈ V, InFloatRange r.1 ∧ InFloatRange r.2.1 ∧ InFloatRange r.2.2

/-- Every entry of the array is a finite single-precision value (a `dense_f32`
array, or a `dense_f64` array that happens to hold such values). -/
def AllFloat (V : MatrixV) : Prop :=
  ∀ r ∈ V, IsFloat r.1 ∧ IsFloat r.2.1 ∧ IsFloat r.2.2

/-! ## Outcomes -/

/-- The failures of the specification's error taxonomy (§7). -/
inductive SamplingError
  | InvalidIndex
  | InvalidParameter
deriving DecidableEq

/-- What running a piece of the program gives: a value, a reported failure, or
C++ undefined behaviour (nothing is checked and nothing is reported). -/
inductive Outcome (α : Type)
  | ok (val : α)
  | fail (e : SamplingError)
  | undefined

/-- Sequencing: a failure or undefined behaviour ends the computation there. -/
def Outcome.bind {α β : Type} : Outcome α → (α → Outcome β) → Outcome β
  | .ok a, k => k a
  | .fail e, _ => .fail e
  | .undefined, _ => .undefined

/-! ## The mesh (`MyMesh`) -/

/-- The `CoordType` of `MyMesh`, `vcg::Point3f`. -/
structure Point3f where
  x : ℚ
  y : ℚ
  z : ℚ
deriving DecidableEq

/-- The three vertex references (`face::VertexRef`) of a `MyFace`. -/
structure MyFace where
  v0 : ℕ
  v1 : ℕ
  v2 : ℕ
deriving DecidableEq

/-- An axis-aligned box, `vcg::Box3f`. -/
structure Box3f where
  min : Point3f
  max : Point3f
deriving DecidableEq

/-- The mesh `MyMesh`: vertex vector, face vector, their counters and the
bounding box (`none` is the null box). -/
structure MyMesh where
  vert : List Point3f
  face : List MyFace
  vn : ℕ
  fn : ℕ
  bbox : Option Box3f

/-- A freshly declared mesh, `MyMesh m;`. -/
def MyMesh.empty : MyMesh := ⟨[], [], 0, 0, none⟩

/-- The constructor call `MyMesh::CoordType(V(i,0), V(i,1), V(i,2))` on one
row of the array: each entry is converted to `float`. -/
def coordOfRow (r : ℚ × ℚ × ℚ) : Point3f :=
  ⟨narrowToFloat r.1, narrowToFloat r.2.1, narrowToFloat r.2.2⟩

/-- One row of the exported array: `V(i, k) = P()[k]`. -/
def rowOfCoord (p : Point3f) : ℚ × ℚ × ℚ := (p.x, p.y, p.z)

/-- A computed position stored into a vertex of a `MyMesh`: the vertex holds
`float` coordinates, so each coordinate is converted. -/
def storeCoord (p : Point3f) : Point3f :=
  ⟨narrowToFloat p.x, narrowToFloat p.y, narrowToFloat p.z⟩

/-- Modelled from the spec: `Allocator<MyMesh>::AddVertices` (VCG, not under
src/).  Appends `n` vertices to the ordered vertex sequence of the mesh (§3) and
counts them; the new vertices start at position `m.vert.length`. -/
def Allocator.AddVertices (m : MyMesh) (n : ℕ) : MyMesh :=
  { m with vert := m.vert ++ List.replicate n ⟨0, 0, 0⟩, vn := m.vn + n }

/-- Modelled from the spec: `Allocator<MyMesh>::AddFaces` (VCG, not under
src/).  Appends `n` faces to the ordered face sequence of the mesh (§3). -/
def Allocator.AddFaces (m : MyMesh) (n : ℕ) : MyMesh :=
  { m with face := m.face ++ List.replicate n ⟨0, 0, 0⟩, fn := m.fn + n }

/-- Componentwise minimum of two points. -/
def Point3f.inf (p q : Point3f) : Point3f := ⟨min p.x q.x, min p.y q.y, min p.z q.z⟩

/-- Componentwise maximum of two points. -/
def Point3f.sup (p q : Point3f) : Point3f := ⟨max p.x q.x, max p.y q.y, max p.z q.z⟩

/-- Smallest axis-aligned box holding the points; `none` when there are none. -/
def boxOf : List Point3f → Option Box3f
  | [] => none
  | p :: ps => some (ps.foldl (fun b q => ⟨b.min.inf q, b.max.sup q⟩) ⟨p, p⟩)

/-- Every face of the box touches one of the points: each bound is the
coordinate of a point of the list. -/
def Box3f.AttainedBy (b : Box3f) (S : List Point3f) : Prop :=
  ((∃ q ∈ S, b.min.x = q.x) ∧ (∃ q ∈ S, b.min.y = q.y) ∧ (∃ q ∈ S, b.min.z = q.z))
    ∧ ((∃ q ∈ S, b.max.x = q.x) ∧ (∃ q ∈ S, b.max.y = q.y) ∧ (∃ q ∈ S, b.max.z = q.z))

/-- Modelled from the spec: `tri::UpdateBounding<MyMesh>::Box` (VCG, not under
src/): "computes the bounding box as the componentwise min/max over all
vertices" (§4.1). -/
def UpdateBounding.Box (m : MyMesh) : MyMesh :=
  { m with bbox := boxOf m.vert }

/-- The vertex loop of `vcg_mesh_from_vf` and `vcg_mesh_from_v`:
`for i: vit->P() = CoordType(V(i,0), V(i,1), V(i,2)); vit++`, with `vit` at
position `i` of the vertex vector. -/
def fillVertices : MatrixV → ℕ → List Point3f → List Point3f
  | [], _, vs => vs
  | r :: rest, i, vs => fillVertices rest (i + 1) (vs.set i (coordOfRow r))

/-- The read `ivp[j]` of the pointer table built by the vertex loop: entry `j`
points at vertex `base + j`; the table has `n` entries, and a read outside
`0 .. n-1` is unchecked (`none`). -/
def ivpAt (base n : ℕ) (j : ℤ) : Option ℕ :=
  if 0 ≤ j ∧ j < n then some (base + j.toNat) else none

/-- The face loop of `vcg_mesh_from_vf`:
`for i: fit->V(k) = ivp[F(i,k)] (k = 0,1,2); fit++`, with `fit` at position `i`
of the face vector.  An out-of-range read of `ivp` is undefined behaviour. -/
def fillFaces (base n : ℕ) : MatrixF → ℕ → List MyFace → Outcome (List MyFace)
  | [], _, fs => .ok fs
  | r :: rest, i, fs =>
    match ivpAt base n r.1, ivpAt base n r.2.1, ivpAt base n r.2.2 with
    | some a, some b, some c => fillFaces base n rest (i + 1) (fs.set i ⟨a, b, c⟩)
    | _, _, _ => .undefined

/-- Source function `vcg_mesh_from_vf(V, F, m)`: copy a `#V x 3` array of
vertices and a `#F x 3` array of face indices into the mesh `m`. -/
def vcg_mesh_from_vf (V : MatrixV) (F : MatrixF) (m : MyMesh) : Outcome MyMesh :=
  let m1 := Allocator.AddVertices m V.length
  let m2 := { m1 with vert := fillVertices V m.vert.length m1.vert }
  let m3 := Allocator.AddFaces m2 F.length
  (fillFaces m.vert.length V.length F m2.face.length m3.face).bind fun fs =>
    .ok (UpdateBounding.Box { m3 with face := fs })

/-- Source function `vcg_mesh_from_v(V, m)`: copy a `#V x 3` array of vertices
into the mesh `m`. -/
def vcg_mesh_from_v (V : MatrixV) (m : MyMesh) : MyMesh :=
  let m1 := Allocator.AddVertices m V.length
  UpdateBounding.Box { m1 with vert := fillVertices V m.vert.length m1.vert }

/-- Source function `vcg_mesh_to_v(m, V)`: `V.resize(m.vn, 3)`, then one row
per element of `m.vert`, in order (a `float` coordinate is stored into the
array exactly).  When the vertex vector and the counter `vn` disagree, rows are
written past the array or left unwritten: no defined result. -/
def vcg_mesh_to_v (m : MyMesh) : Outcome MatrixV :=
  if m.vert.length = m.vn then .ok (m.vert.map rowOfCoord) else .undefined

/-- Squared Euclidean distance between two rows of an array. -/
def rowDistSq (p q : ℚ × ℚ × ℚ) : ℚ :=
  (p.1 - q.1) ^ 2 + (p.2.1 - q.2.1) ^ 2 + (p.2.2 - q.2.2) ^ 2

/-- Every index of the face array is a row of a vertex array with `n` rows. -/
def FacesInRange (n : ℕ) (F : MatrixF) : Prop :=
  ∀ r ∈ F, (0 ≤ r.1 ∧ r.1 < n) ∧ (0 ≤ r.2.1 ∧ r.2.1 < n) ∧ (0 ≤ r.2.2 ∧ r.2.2 < n)

/-- The face the loop stores for one row of in-range indices. -/
def faceOfRow (r : ℤ × ℤ × ℤ) : MyFace := ⟨r.1.toNat, r.2.1.toNat, r.2.2.toNat⟩

/-- The mesh `vcg_mesh_from_vf` builds from arrays whose face indices are in
range: converted vertices, one face per row, counters, bounding box. -/
def builtMesh (V : MatrixV) (F : MatrixF) : MyMesh :=
  ⟨V.map coordOfRow, F.map faceOfRow, V.length, F.length, boxOf (V.map coordOfRow)⟩

/-! ## Spatial grid index (specification §3, §4.2) -/

/-- Integer cell coordinate. -/
abbrev Cell := ℤ × ℤ × ℤ

/-- Modelled from the spec: the Spatial Grid Index (VCG, not under src/).  "An
origin, a per-axis cell size, and a mapping from integer cell coordinate to a
bucket" (§3).  The mapping lists the occupied cells in the order in which they
were first occupied; `cellSize` is the size of a cell along each axis. -/
structure SpatialGrid (β : Type) where
  origin : Point3f
  cellSize : ℚ
  buckets : List (Cell × List β)

/-- Modelled from the spec: "cell coordinate = floor((point − origin) /
cellSize) component-wise" (§3). -/
def cellAt (origin : Point3f) (cellSize : ℚ) (p : Point3f) : Cell :=
  (⌊(p.x - origin.x) / cellSize⌋, ⌊(p.y - origin.y) / cellSize⌋,
    ⌊(p.z - origin.z) / cellSize⌋)

/-- The cell of a point in a grid. -/
def SpatialGrid.cellOf {β : Type} (g : SpatialGrid β) (p : Point3f) : Cell :=
  cellAt g.origin g.cellSize p

/-- Append a payload to the bucket of a cell, opening the bucket when the cell
was not occupied yet. -/
def insertBucket {β : Type} : List (Cell × List β) → Cell → β → List (Cell × List β)
  | [], c, b => [(c, [b])]
  | (c', bs) :: rest, c, b =>
    if c' = c then (c', bs ++ [b]) :: rest else (c', bs) :: insertBucket rest c b

/-- Modelled from the spec: "`Insert(point, payload)`: computes the cell
coordinate and appends `payload` to that cell's bucket" (§4.2). -/
def SpatialGrid.Insert {β : Type} (g : SpatialGrid β) (p : Point3f) (payload : β) :
    SpatialGrid β :=
  { g with buckets := insertBucket g.buckets (g.cellOf p) payload }

/-- Number of cell coordinates along one axis that the points of a box of the
given extent can take: coordinates `0 .. floor(extent / cellSize)`. -/
def cellsAlong (extent cellSize : ℚ) : ℤ := ⌊extent / cellSize⌋ + 1

/-- Modelled from the spec: "`Build(boundingBox, maxCellsPerAxis, cellSize)`:
cell counts per axis are derived from box extents.  Fails with
`InvalidParameter` if `cellSize ≤ 0` or if derived cell counts would exceed
`maxCellsPerAxis` per axis" (§4.2).  The source always passes a cell size, so
only that case is modelled.  A null box (no points) has no cells. -/
def SpatialGrid.Build {β : Type} (boundingBox : Option Box3f) (maxCellsPerAxis : ℕ)
    (cellSize : ℚ) : Outcome (SpatialGrid β) :=
  if cellSize ≤ 0 then .fail .InvalidParameter
  else
    match boundingBox with
    | none => .ok ⟨⟨0, 0, 0⟩, cellSize, []⟩
    | some b =>
      if (maxCellsPerAxis : ℤ) < cellsAlong (b.max.x - b.min.x) cellSize
          ∨ (maxCellsPerAxis : ℤ) < cellsAlong (b.max.y - b.min.y) cellSize
          ∨ (maxCellsPerAxis : ℤ) < cellsAlong (b.max.z - b.min.z) cellSize then
        .fail .InvalidParameter
      else .ok ⟨b.min, cellSize, []⟩

/-- Gap between the coordinate `t` and the interval `[lo, hi]` (zero inside). -/
def axisGap (lo hi t : ℚ) : ℚ :=
  if t < lo then lo - t else if hi < t then t - hi else 0

/-- Squared distance from a point to the region of a cell, the box
`origin + c * cellSize .. origin + (c + 1) * cellSize` on each axis. -/
def SpatialGrid.cellDistSq {β : Type} (g : SpatialGrid β) (c : Cell) (p : Point3f) : ℚ :=
  axisGap (g.origin.x + c.1 * g.cellSize) (g.origin.x + (c.1 + 1) * g.cellSize) p.x ^ 2
  + axisGap (g.origin.y + c.2.1 * g.cellSize) (g.origin.y + (c.2.1 + 1) * g.cellSize) p.y ^ 2
  + axisGap (g.origin.z + c.2.2 * g.cellSize) (g.origin.z + (c.2.2 + 1) * g.cellSize) p.z ^ 2

/-- Modelled from the spec: "`QueryNeighborCells(point, radius)`: returns all
cells whose region intersects the sphere of the given radius centered at
`point`" (§4.2).  Cells that hold nothing are not listed. -/
def SpatialGrid.QueryNeighborCells {β : Type} (g : SpatialGrid β) (p : Point3f)
    (radius : ℚ) : List (Cell × List β) :=
  g.buckets.filter fun b => decide (g.cellDistSq b.1 p ≤ radius * radius)

/-! ## Grid clustering (specification §4.5) -/

/-- Arithmetic mean of a list of positions. -/
def mean (ps : List Point3f) : Point3f :=
  ⟨(ps.map Point3f.x).sum / ps.length, (ps.map Point3f.y).sum / ps.length,
    (ps.map Point3f.z).sum / ps.length⟩

/-- Modelled from the spec: `tri::Clustering::Init` (VCG, not under src/):
"builds a Spatial Grid Index over the bounding box of `points` with the given
`cellSize` (fails with `InvalidParameter` under the same conditions as §4.2)"
(§4.5). -/
def Clustering.Init (bbox : Option Box3f) (size : ℕ) (cellsize : ℚ) :
    Outcome (SpatialGrid Point3f) :=
  SpatialGrid.Build bbox size cellsize

/-- Modelled from the spec: `tri::Clustering::AddPointSet` (VCG, not under
src/): "inserts every point" (§4.5), in vertex order. -/
def Clustering.AddPointSet (grid : SpatialGrid Point3f) (m : MyMesh) : SpatialGrid Point3f :=
  m.vert.foldl (fun g p => g.Insert p p) grid

/-- Modelled from the spec: `tri::Clustering::ExtractMesh` (VCG, not under
src/): "for each occupied cell, computes the representative as the arithmetic
mean of all point positions assigned to that cell.  Output order follows cell
visitation order" (§4.5).  The representatives become the vertices of the
output mesh `cluM`, which the source declares as a `MyMesh`: each mean is
stored in `float` coordinates. -/
def Clustering.ExtractMesh (grid : SpatialGrid Point3f) (cluM : MyMesh) : MyMesh :=
  { cluM with
    vert := cluM.vert ++ grid.buckets.map (fun b => storeCoord (mean b.2))
    vn := cluM.vn + grid.buckets.length }

/-- Source function `cluster_vertices(v, cell_size)`. -/
def cluster_vertices (v : MatrixV) (cell_size : ℚ) : Outcome MatrixV :=
  let m := vcg_mesh_from_v v MyMesh.empty
  (Clustering.Init m.bbox 100000 cell_size).bind fun grid =>
    vcg_mesh_to_v (Clustering.ExtractMesh (Clustering.AddPointSet grid m) MyMesh.empty)

/-- The empty grid `Clustering.Init` returns when it succeeds: origin at the
minimum corner of the bounding box. -/
def clusterGrid (bbox : Option Box3f) (cell_size : ℚ) : SpatialGrid Point3f :=
  match bbox with
  | none => ⟨⟨0, 0, 0⟩, cell_size, []⟩
  | some b => ⟨b.min, cell_size, []⟩

/-- The cell counts derived from the box stay within the bound on every axis. -/
def CellsWithinBound (bbox : Option Box3f) (maxCellsPerAxis : ℕ) (cell_size : ℚ) : Prop :=
  match bbox with
  | none => True
  | some b =>
    cellsAlong (b.max.x - b.min.x) cell_size ≤ maxCellsPerAxis
      ∧ cellsAlong (b.max.y - b.min.y) cell_size ≤ maxCellsPerAxis
      ∧ cellsAlong (b.max.z - b.min.z) cell_size ≤ maxCellsPerAxis

/-- The cell of a stored position in the grid `cluster_vertices` builds over the
array `v`. -/
def clusterCellOf (v : MatrixV) (cell_size : ℚ) (p : Point3f) : Cell :=
  (clusterGrid (boxOf (v.map coordOfRow)) cell_size).cellOf p

/-! ## Poisson-disk pruning (specification §4.4) -/

/-- The two flags of `PoissonDiskParam` that the source sets. -/
structure PoissonDiskParam where
  bestSampleChoiceFlag : Bool
  geodesicDistanceFlag : Bool

/-- Modelled from the spec: a Sample, "a 3-D position plus optional provenance
(source vertex ...)" (§3). -/
structure Sample where
  pos : Point3f
  src : ℕ
deriving DecidableEq

/-- Squared Euclidean distance. -/
def distSq (p q : Point3f) : ℚ :=
  (p.x - q.x) ^ 2 + (p.y - q.y) ^ 2 + (p.z - q.z) ^ 2

/-- Modelled from the spec: a pairwise violation, "distance < `radius`", under
the Euclidean metric or, when enabled, the geodesic one (§4.4).  For a positive
radius the Euclidean test is decided exactly on squares.  The geodesic
approximation is left open by the specification (§9) and is a parameter. -/
def violates (geodesic : Point3f → Point3f → ℚ) (pp : PoissonDiskParam) (radius : ℚ)
    (p q : Point3f) : Bool :=
  if pp.geodesicDistanceFlag then decide (geodesic p q < radius)
  else decide (distSq p q < radius * radius)

/-- Modelled from the spec: the candidates in violation with `s`, looked for
"restricted to neighboring cells (via `QueryNeighborCells`)" (§4.4). -/
def conflicting (geodesic : Point3f → Point3f → ℚ) (pp : PoissonDiskParam) (radius : ℚ)
    (grid : SpatialGrid Sample) (s : Sample) : List Sample :=
  ((grid.QueryNeighborCells s.pos radius).flatMap Prod.snd).filter
    fun t => decide (t ≠ s) && violates geodesic pp radius s.pos t.pos

/-- Modelled from the spec: removal policy with `bestChoiceSampling` disabled,
"iterate candidates in generation order and remove any later candidate that
violates the radius against an already-accepted one" (§4.4). -/
def pruneInOrder (geodesic : Point3f → Point3f → ℚ) (pp : PoissonDiskParam) (radius : ℚ)
    (grid : SpatialGrid Sample) : List Sample → List Sample → List Sample
  | [], accepted => accepted
  | s :: rest, accepted =>
    if (conflicting geodesic pp radius grid s).any (fun t => decide (t ∈ accepted)) then
      pruneInOrder geodesic pp radius grid rest accepted
    else pruneInOrder geodesic pp radius grid rest (accepted ++ [s])

/-- Number of unresolved conflicts of `s`: surviving candidates in violation
with it. -/
def conflictCount (geodesic : Point3f → Point3f → ℚ) (pp : PoissonDiskParam) (radius : ℚ)
    (grid : SpatialGrid Sample) (alive : List Sample) (s : Sample) : ℕ :=
  ((conflicting geodesic pp radius grid s).filter fun t => decide (t ∈ alive)).length

/-- Modelled from the spec: "select for removal the surviving candidate with
the fewest remaining unresolved conflicts (ties broken by generation order)"
(§4.4), among the candidates that have an unresolved conflict. -/
def selectForRemoval (geodesic : Point3f → Point3f → ℚ) (pp : PoissonDiskParam) (radius : ℚ)
    (grid : SpatialGrid Sample) (alive : List Sample) : Option Sample :=
  List.argmin (conflictCount geodesic pp radius grid alive)
    (alive.filter fun s => decide (0 < conflictCount geodesic pp radius grid alive s))

/-- Modelled from the spec: removal policy with `bestChoiceSampling` enabled,
one removal per step until "no pair of surviving candidates violates the radius
constraint" (§4.4).  The first argument bounds the number of steps. -/
def pruneBestChoice (geodesic : Point3f → Point3f → ℚ) (pp : PoissonDiskParam) (radius : ℚ)
    (grid : SpatialGrid Sample) : ℕ → List Sample → List Sample
  | 0, alive => alive
  | fuel + 1, alive =>
    match selectForRemoval geodesic pp radius grid alive with
    | none => alive
    | some s =>
      pruneBestChoice geodesic pp radius grid fuel (alive.filter fun t => decide (t ≠ s))

/-- The candidates of a pruning run: the vertices of the mesh, in order, each
with its position in the vertex vector as provenance. -/
def candidatesFrom : ℕ → List Point3f → List Sample
  | _, [] => []
  | i, p :: ps => ⟨p, i⟩ :: candidatesFrom (i + 1) ps

/-- Modelled from the spec: the INDEX state, "build a Spatial Grid Index over
the candidate positions with cell size equal to `radius`" (§4.4): every
candidate is inserted into a grid whose origin is the minimum corner of the
bounding box.  The state machine of §4.4 has no failure in this state, so no
bound on the number of cells applies here. -/
def pruningGrid (montecarloMesh : MyMesh) (diskRadius : ℚ) : SpatialGrid Sample :=
  (candidatesFrom 0 montecarloMesh.vert).foldl (fun g s => g.Insert s.pos s)
    ⟨(montecarloMesh.bbox.map Box3f.min).getD ⟨0, 0, 0⟩, diskRadius, []⟩

/-- The survivors of a pruning run with a positive radius. -/
def survivors (geodesic : Point3f → Point3f → ℚ) (montecarloMesh : MyMesh) (diskRadius : ℚ)
    (pp : PoissonDiskParam) : List Sample :=
  let cands := candidatesFrom 0 montecarloMesh.vert
  let grid := pruningGrid montecarloMesh diskRadius
  if pp.bestSampleChoiceFlag then
    pruneBestChoice geodesic pp diskRadius grid cands.length cands
  else pruneInOrder geodesic pp diskRadius grid cands []

/-- Modelled from the spec: `MeshSampler::AddVert` (VCG, not under src/): the
sampler appends the position of a kept sample to its mesh. -/
def MeshSampler.AddVert (m : MyMesh) (p : Point3f) : MyMesh :=
  { m with vert := m.vert ++ [p], vn := m.vn + 1 }

/-- Modelled from the spec: `tri::SurfaceSampling::PoissonDiskPruning(ps,
montecarloMesh, diskRadius, pp)` (VCG, not under src/), the states INIT, INDEX,
PRUNE and DONE of §4.4 run on the candidates the source hands over, the
vertices of `montecarloMesh`: "validate `radius > 0`, else fail with
`InvalidParameter`"; index; prune; "result is the positions of all surviving
candidates, in survival order", added to the sampler's mesh `ps`. -/
def PoissonDiskPruning (geodesic : MyMesh → Point3f → Point3f → ℚ) (ps : MyMesh)
    (montecarloMesh : MyMesh) (diskRadius : ℚ) (pp : PoissonDiskParam) : Outcome MyMesh :=
  if diskRadius ≤ 0 then .fail .InvalidParameter
  else
    .ok ((survivors (geodesic montecarloMesh) montecarloMesh diskRadius pp).foldl
      (fun m s => MeshSampler.AddVert m s.pos) ps)

/-- Source function `poisson_disk_sample(v, f, radius, use_geodesic_distance,
best_choice_sampling)`; the two flags default to `false`. -/
def poisson_disk_sample (geodesic : MyMesh → Point3f → Point3f → ℚ) (v : MatrixV)
    (f : MatrixF) (radius : ℚ) (use_geodesic_distance : Bool) (best_choice_sampling : Bool) :
    Outcome MatrixV :=
  (vcg_mesh_from_vf v f MyMesh.empty).bind fun m =>
    let pp : PoissonDiskParam :=
      { bestSampleChoiceFlag := best_choice_sampling
        geodesicDistanceFlag := use_geodesic_distance }
    (PoissonDiskPruning geodesic MyMesh.empty m radius pp).bind fun subM =>
      vcg_mesh_to_v subM

/-- Fisher–Yates-style selection: each draw takes one element out of the pool. -/
def drawDistinct (rng : ℕ → ℕ) : ℕ → ℕ → List ℕ → List ℕ
  | 0, _, _ => []
  | _ + 1, _, [] => []
  | count + 1, k, a :: pool =>
    let x := (a :: pool).getD (rng k % (a :: pool).length) a
    x :: drawDistinct rng count (k + 1) ((a :: pool).erase x)

/-- Draws with replacement: draw `k` picks vertex `rng k mod n`. -/
def drawWithReplacement (rng : ℕ → ℕ) (count n : ℕ) : List ℕ :=
  (List.range count).map fun k => rng k % n

/-- Modelled from the spec: the vertices `SampleVertices(mesh, count, rng)`
selects: "if `count ≤ vertexCount`, draws `count` distinct vertices without
replacement (e.g., reservoir or Fisher–Yates-style selection); otherwise draws
with replacement until `count` samples are produced" (§4.3); an empty mesh
"produces an empty result" (§7).  The generator is the sequence of its draws. -/
def sampledIndices (rng : ℕ → ℕ) (vertexCount : ℕ) (count : ℤ) : List ℕ :=
  if count ≤ vertexCount then drawDistinct rng count.toNat 0 (List.range vertexCount)
  else if vertexCount = 0 then []
  else drawWithReplacement rng count.toNat vertexCount

/-- Modelled from the spec: `tri::SurfaceSampling::VertexUniform(m, ps,
sampleNum)` (VCG, not under src/), the operation `SampleVertices` of §4.3; the
selected vertices are added to the sampler's mesh `ps`. -/
def VertexUniform (rng : ℕ → ℕ) (m : MyMesh) (ps : MyMesh) (sampleNum : ℤ) : MyMesh :=
  (sampledIndices rng m.vert.length sampleNum).foldl
    (fun acc i => MeshSampler.AddVert acc (m.vert.getD i ⟨0, 0, 0⟩)) ps

/-- Source function `random_sample(v, f, num_samples)`. -/
def random_sample (rng : ℕ → ℕ) (v : MatrixV) (f : MatrixF) (num_samples : ℤ) :
    Outcome MatrixV :=
  (vcg_mesh_from_vf v f MyMesh.empty).bind fun m =>
    vcg_mesh_to_v (VertexUniform rng m MyMesh.empty num_samples)

/-! ## Theorems: array/mesh conversion -/

theorem floatUnits_of_log (num den s : ℕ) (h₀ : 2 ^ 24 ≤ num * 2 ^ 149 / den)
    (h₁ : 2 ^ (s + 23) ≤ num * 2 ^ 149 / den) (h₂ : num * 2 ^ 149 / den < 2 ^ (s + 24)) :
    floatUnits num den = roundHalfEvenDiv (num * 2 ^ 149) (den * 2 ^ s) * 2 ^ s := by
  have hne : num * 2 ^ 149 / den ≠ 0 := by
    have : 0 < 2 ^ 24 := by norm_num
    omega
  have hlog : Nat.log2 (num * 2 ^ 149 / den) = s + 23 := by
    rw [Nat.log2_eq_log_two]
    exact (Nat.log_eq_iff (Or.inr ⟨by norm_num, hne⟩)).2 ⟨h₁, h₂⟩
  unfold floatUnits
  simp only [hlog, Nat.not_lt.2 h₀, if_false, Nat.add_sub_cancel]

theorem narrowToFloat_zero : narrowToFloat 0 = 0 := by
  simp [narrowToFloat, floatUnits, roundHalfEvenDiv]

theorem roundHalfEvenDiv_mul_left (c a d : ℕ) (hc : 0 < c) :
    roundHalfEvenDiv (c * a) (c * d) = roundHalfEvenDiv a d := by
  have h1 : (2 * (c * (a % d)) < c * d) ↔ (2 * (a % d) < d) := by
    rw [show 2 * (c * (a % d)) = c * (2 * (a % d)) by ring]
    exact Nat.mul_lt_mul_left hc
  have h2 : (c * d < 2 * (c * (a % d))) ↔ (d < 2 * (a % d)) := by
    rw [show 2 * (c * (a % d)) = c * (2 * (a % d)) by ring]
    exact Nat.mul_lt_mul_left hc
  unfold roundHalfEvenDiv
  simp only [Nat.mul_div_mul_left _ _ hc, Nat.mul_mod_mul_left, h1, h2]

theorem floatUnits_mul_left (c n d : ℕ) (hc : 0 < c) :
    floatUnits (c * n) (c * d) = floatUnits n d := by
  unfold floatUnits
  simp only [Nat.mul_assoc, Nat.mul_div_mul_left _ _ hc, roundHalfEvenDiv_mul_left _ _ _ hc]

theorem roundHalfEvenDiv_bounds (a d : ℕ) :
    a / d ≤ roundHalfEvenDiv a d ∧ roundHalfEvenDiv a d ≤ a / d + 1 := by
  unfold roundHalfEvenDiv
  simp only []
  split_ifs <;> omega

theorem roundHalfEvenDiv_of_lt (a d : ℕ) (h : 2 * (a % d) < d) :
    roundHalfEvenDiv a d = a / d := by
  unfold roundHalfEvenDiv
  simp only [h, if_true]

theorem roundHalfEvenDiv_mul_self (d t : ℕ) (hd : 0 < d) : roundHalfEvenDiv (d * t) d = t := by
  rw [roundHalfEvenDiv_of_lt _ _ (by simpa using hd)]
  exact Nat.mul_div_cancel_left t hd

theorem floatUnits_of_onFloatGrid (U : ℕ) (h : OnFloatGrid U) : floatUnits U (2 ^ 149) = U := by
  have hn : U * 2 ^ 149 / 2 ^ 149 = U := Nat.mul_div_cancel U (by positivity)
  have hdvd : 2 ^ (if U < 2 ^ 24 then 0 else Nat.log2 U - 23) ∣ U := by
    split_ifs with h24
    · simp
    · rcases h with h | h
      · exact absurd h h24
      · exact h
  unfold floatUnits
  simp only [hn]
  generalize (if U < 2 ^ 24 then 0 else Nat.log2 U - 23) = s at hdvd
  obtain ⟨t, rfl⟩ := hdvd
  rw [show 2 ^ s * t * 2 ^ 149 = (2 ^ 149 * 2 ^ s) * t by ring,
    roundHalfEvenDiv_mul_self _ _ (by positivity)]
  ring

theorem log2_eq_of_bounds (m e : ℕ) (h₁ : 2 ^ e ≤ m) (h₂ : m < 2 ^ (e + 1)) : Nat.log2 m = e := by
  have hne : m ≠ 0 := by
    have : 0 < 2 ^ e := by positivity
    omega
  rw [Nat.log2_eq_log_two]
  exact (Nat.log_eq_iff (Or.inr ⟨by norm_num, hne⟩)).2 ⟨h₁, h₂⟩

/-- Shape of `floatUnits` above the subnormal range: a 24-bit significand
times a power of two. -/
theorem floatUnits_large (n d : ℕ) (h24 : ¬ n * 2 ^ 149 / d < 2 ^ 24) :
    ∃ s k, 1 ≤ s ∧ s + 23 = Nat.log2 (n * 2 ^ 149 / d)
      ∧ k = roundHalfEvenDiv (n * 2 ^ 149) (d * 2 ^ s)
      ∧ floatUnits n d = k * 2 ^ s ∧ 2 ^ 23 ≤ k ∧ k ≤ 2 ^ 24
      ∧ n * 2 ^ 149 / (d * 2 ^ s) < 2 ^ 24 := by
  have hm0 : n * 2 ^ 149 / d ≠ 0 := by
    intro h0
    rw [h0] at h24
    exact h24 (by norm_num)
  have hlo := Nat.log2_self_le hm0
  have hhi := @Nat.lt_log2_self (n * 2 ^ 149 / d)
  generalize hm : n * 2 ^ 149 / d = m at *
  generalize he : Nat.log2 m = e at *
  have he24 : 24 ≤ e := by
    by_contra hlt
    have : 2 ^ (e + 1) ≤ 2 ^ 24 := Nat.pow_le_pow_right (by norm_num) (by omega)
    omega
  have hq : n * 2 ^ 149 / (d * 2 ^ (e - 23)) = m / 2 ^ (e - 23) := by
    rw [← Nat.div_div_eq_div_mul, hm]
  have hq1 : 2 ^ 23 ≤ m / 2 ^ (e - 23) := by
    rw [Nat.le_div_iff_mul_le (by positivity), ← pow_add]
    rwa [show 23 + (e - 23) = e by omega]
  have hq2 : m / 2 ^ (e - 23) < 2 ^ 24 := by
    rw [Nat.div_lt_iff_lt_mul (by positivity), ← pow_add]
    rwa [show 24 + (e - 23) = e + 1 by omega]
  have hb := roundHalfEvenDiv_bounds (n * 2 ^ 149) (d * 2 ^ (e - 23))
  rw [hq] at hb
  refine ⟨e - 23, _, by omega, by omega, rfl, ?_, by omega, by omega, by rw [hq]; exact hq2⟩
  unfold floatUnits
  simp only [hm, h24, if_false, he]

theorem onFloatGrid_floatUnits (n d : ℕ) : OnFloatGrid (floatUnits n d) := by
  by_cases h24 : n * 2 ^ 149 / d < 2 ^ 24
  · have hU : floatUnits n d = roundHalfEvenDiv (n * 2 ^ 149) d := by
      unfold floatUnits
      simp only [h24, if_true, pow_zero, Nat.mul_one]
    have hb := roundHalfEvenDiv_bounds (n * 2 ^ 149) d
    rw [hU]
    by_cases hlt : roundHalfEvenDiv (n * 2 ^ 149) d < 2 ^ 24
    · exact Or.inl hlt
    · have heq : roundHalfEvenDiv (n * 2 ^ 149) d = 2 ^ 24 := by omega
      rw [heq]
      right
      rw [log2_eq_of_bounds (2 ^ 24) 24 (le_refl _) (by norm_num)]
      norm_num
  · obtain ⟨s, k, hs, he, _, hU, hk1, hk2, _⟩ := floatUnits_large n d h24
    rw [hU]
    right
    by_cases hlt : k < 2 ^ 24
    · have hlog : Nat.log2 (k * 2 ^ s) = s + 23 := by
        apply log2_eq_of_bounds
        · rw [show s + 23 = 23 + s by omega, pow_add]
          exact Nat.mul_le_mul_right _ hk1
        · rw [show s + 23 + 1 = 24 + s by omega, pow_add]
          exact Nat.mul_lt_mul_of_pos_right hlt (by positivity)
      rw [hlog, Nat.add_sub_cancel]
      exact Dvd.intro_left k rfl
    · have heq : k = 2 ^ 24 := by omega
      have hlog : Nat.log2 (k * 2 ^ s) = s + 24 := by
        rw [heq, ← pow_add]
        apply log2_eq_of_bounds
        · rw [show s + 24 = 24 + s by omega]
        · exact Nat.pow_lt_pow_right (by norm_num) (by omega)
      rw [hlog, heq, ← pow_add]
      exact pow_dvd_pow 2 (by omega)

/-- Below the overflow bound the rounded magnitude is at most `FLT_MAX`. -/
theorem floatUnits_le_max (n d : ℕ) (hd : 0 < d) (hx : n < (2 ^ 128 - 2 ^ 103) * d) :
    floatUnits n d ≤ (2 ^ 24 - 1) * 2 ^ 253 := by
  have ha : n * 2 ^ 149 < (2 ^ 25 - 1) * 2 ^ 252 * d := by
    calc n * 2 ^ 149 < (2 ^ 128 - 2 ^ 103) * d * 2 ^ 149 :=
          Nat.mul_lt_mul_of_pos_right hx (by positivity)
      _ = (2 ^ 25 - 1) * 2 ^ 252 * d := by
        rw [Nat.mul_right_comm]
        congr 1
  have hm : n * 2 ^ 149 / d < (2 ^ 25 - 1) * 2 ^ 252 := by
    rw [Nat.div_lt_iff_lt_mul hd]
    exact ha
  by_cases h24 : n * 2 ^ 149 / d < 2 ^ 24
  · have hU : floatUnits n d = roundHalfEvenDiv (n * 2 ^ 149) d := by
      unfold floatUnits
      simp only [h24, if_true, pow_zero, Nat.mul_one]
    have hb := roundHalfEvenDiv_bounds (n * 2 ^ 149) d
    rw [hU]
    omega
  · obtain ⟨s, k, hs, he, hk, hU, hk1, hk2, hq⟩ := floatUnits_large n d h24
    have hm0 : n * 2 ^ 149 / d ≠ 0 := by
      intro h0
      rw [h0] at h24
      exact h24 (by norm_num)
    have hlo := Nat.log2_self_le hm0
    rw [← he] at hlo
    have hs253 : s ≤ 253 := by
      by_contra hgt
      obtain ⟨t, rfl⟩ : ∃ t, s = 254 + t := ⟨s - 254, by omega⟩
      have h277 : 2 ^ 25 * 2 ^ 252 ≤ 2 ^ (254 + t + 23) := by
        rw [show 254 + t + 23 = 25 + 252 + t by omega, pow_add, pow_add]
        exact Nat.le_mul_of_pos_right _ (by positivity)
      omega
    rw [hU]
    by_cases hs252 : s ≤ 252
    · calc k * 2 ^ s ≤ 2 ^ 24 * 2 ^ 252 :=
            Nat.mul_le_mul hk2 (Nat.pow_le_pow_right (by norm_num) hs252)
        _ ≤ (2 ^ 24 - 1) * 2 ^ 253 := by norm_num
    · have hs' : s = 253 := by omega
      subst hs'
      have hk' : k ≤ 2 ^ 24 - 1 := by
        have hb := roundHalfEvenDiv_bounds (n * 2 ^ 149) (d * 2 ^ 253)
        rw [← hk] at hb
        by_cases hq' : n * 2 ^ 149 / (d * 2 ^ 253) < 2 ^ 24 - 1
        · omega
        · have hqe : n * 2 ^ 149 / (d * 2 ^ 253) = 2 ^ 24 - 1 := by omega
          have hdm := Nat.div_add_mod (n * 2 ^ 149) (d * 2 ^ 253)
          rw [hqe] at hdm
          have hr : 2 * (n * 2 ^ 149 % (d * 2 ^ 253)) < d * 2 ^ 253 := by
            generalize n * 2 ^ 149 % (d * 2 ^ 253) = r at hdm
            generalize n * 2 ^ 149 = a at hdm ha
            omega
          rw [hk, roundHalfEvenDiv_of_lt _ _ hr, hqe]
      exact Nat.mul_le_mul_right _ hk'

theorem narrowToFloat_neg (x : ℚ) : narrowToFloat (-x) = -narrowToFloat x := by
  rcases lt_trichotomy x 0 with h | h | h
  · have h1 : ¬ (-x < 0) := by linarith
    simp [narrowToFloat, h, h1]
  · subst h
    simp [narrowToFloat_zero]
  · have h1 : ¬ (x < 0) := by linarith
    have h2 : -x < 0 := by linarith
    simp [narrowToFloat, h1, h2]

theorem narrowToFloat_natDiv (a b : ℕ) (hb : 0 < b) :
    narrowToFloat ((a : ℚ) / b) = (floatUnits a b : ℚ) / 2 ^ 149 := by
  have hb' : (b : ℤ) ≠ 0 := by exact_mod_cast hb.ne'
  obtain ⟨c, hc1, hc2⟩ := Rat.exists_eq_mul_div_num_and_eq_mul_div_den (a : ℤ) hb'
  simp only [Int.cast_natCast] at hc1 hc2
  have hnn : (0 : ℚ) ≤ (a : ℚ) / b := by positivity
  have hnum : 0 ≤ ((a : ℚ) / b).num := Rat.num_nonneg.2 hnn
  have hden : 0 < ((a : ℚ) / b).den := Rat.den_pos _
  unfold narrowToFloat
  simp only [not_lt.2 hnn, if_false]
  generalize ((a : ℚ) / b).den = d at hc2 hden
  generalize ((a : ℚ) / b).num = n at hc1 hnum
  have hcpos : 0 < c := by
    by_contra hle
    have h1 : c * (d : ℤ) ≤ 0 :=
      mul_nonpos_of_nonpos_of_nonneg (not_lt.1 hle) (Int.ofNat_nonneg d)
    have h2 : (0 : ℤ) < b := by exact_mod_cast hb
    omega
  obtain ⟨c', rfl⟩ := Int.eq_ofNat_of_zero_le hcpos.le
  have hc'pos : 0 < c' := by exact_mod_cast hcpos
  have ha : c' * n.natAbs = a := by
    have : ((c' * n.natAbs : ℕ) : ℤ) = (a : ℤ) := by
      rw [Nat.cast_mul, Int.natCast_natAbs, abs_of_nonneg hnum]
      exact hc1.symm
    exact_mod_cast this
  have hb2 : c' * d = b := by exact_mod_cast hc2.symm
  rw [← floatUnits_mul_left c' n.natAbs d hc'pos, ha, hb2]

theorem narrowToFloat_idem_of_onFloatGrid (U : ℕ) (h : OnFloatGrid U) :
    narrowToFloat ((U : ℚ) / 2 ^ 149) = (U : ℚ) / 2 ^ 149 := by
  have h2 := narrowToFloat_natDiv U (2 ^ 149) (Nat.two_pow_pos 149)
  rw [floatUnits_of_onFloatGrid U h, Nat.cast_pow, Nat.cast_ofNat] at h2
  exact h2

/-- Within the range of `float` the conversion yields a finite `float`. -/
theorem isFloat_narrowToFloat (x : ℚ) (hx : InFloatRange x) : IsFloat (narrowToFloat x) := by
  have hd : 0 < x.den := x.den_pos
  have habs : |x| = (x.num.natAbs : ℚ) / x.den := by
    conv_lhs => rw [← Rat.num_div_den x]
    rw [abs_div, Nat.abs_cast, Nat.cast_natAbs, Int.cast_abs]
  have hrange : x.num.natAbs < (2 ^ 128 - 2 ^ 103) * x.den := by
    unfold InFloatRange at hx
    rw [habs, div_lt_iff₀ (by exact_mod_cast hd)] at hx
    have hc : (((2 ^ 128 - 2 ^ 103 : ℕ) : ℚ)) = 2 ^ 128 - 2 ^ 103 := by norm_num
    rw [← hc] at hx
    exact_mod_cast hx
  have hmax := floatUnits_le_max _ _ hd hrange
  have hgrid := onFloatGrid_floatUnits x.num.natAbs x.den
  have hidem := narrowToFloat_idem_of_onFloatGrid _ hgrid
  have hmag : ((floatUnits x.num.natAbs x.den : ℕ) : ℚ) / 2 ^ 149 < 2 ^ 128 - 2 ^ 103 := by
    rw [div_lt_iff₀ (by positivity)]
    have : ((floatUnits x.num.natAbs x.den : ℕ) : ℚ) ≤ (((2 ^ 24 - 1) * 2 ^ 253 : ℕ) : ℚ) := by
      exact_mod_cast hmax
    refine lt_of_le_of_lt this ?_
    norm_num
  have hnn : (0 : ℚ) ≤ ((floatUnits x.num.natAbs x.den : ℕ) : ℚ) / 2 ^ 149 := by positivity
  unfold IsFloat InFloatRange
  by_cases hneg : x < 0
  · have hv : narrowToFloat x = -(((floatUnits x.num.natAbs x.den : ℕ) : ℚ) / 2 ^ 149) := by
      simp [narrowToFloat, hneg]
    rw [hv, abs_neg, abs_of_nonneg hnn, narrowToFloat_neg, hidem]
    exact ⟨hmag, rfl⟩
  · have hv : narrowToFloat x = ((floatUnits x.num.natAbs x.den : ℕ) : ℚ) / 2 ^ 149 := by
      simp [narrowToFloat, hneg]
    rw [hv, abs_of_nonneg hnn, hidem]
    exact ⟨hmag, rfl⟩

theorem abs_sum_le_length_mul (B : ℚ) :
    ∀ l : List ℚ, (∀ x ∈ l, |x| < B) → |l.sum| ≤ l.length * B := by
  intro l
  induction l with
  | nil => intro _; simp
  | cons a l ih =>
    intro h
    have ha := h a (List.mem_cons_self a l)
    have hl := ih fun x hx => h x (List.mem_cons_of_mem a hx)
    have habs := abs_add a l.sum
    simp only [List.sum_cons, List.length_cons, Nat.cast_add, Nat.cast_one]
    linarith

/-- The arithmetic mean of values within the range of `float` is within it. -/
theorem inFloatRange_sum_div_length (l : List ℚ) (hl : l ≠ [])
    (h : ∀ x ∈ l, InFloatRange x) : InFloatRange (l.sum / l.length) := by
  unfold InFloatRange at h ⊢
  obtain ⟨a, t, rfl⟩ := List.exists_cons_of_ne_nil hl
  have ha := h a (List.mem_cons_self a t)
  have ht := abs_sum_le_length_mul _ t fun x hx => h x (List.mem_cons_of_mem a hx)
  have habs := abs_add a t.sum
  have hpos : (0 : ℚ) < ((a :: t).length : ℚ) := by
    simp only [List.length_cons, Nat.cast_add, Nat.cast_one]
    positivity
  rw [abs_div, abs_of_pos hpos, div_lt_iff₀ hpos]
  simp only [List.sum_cons, List.length_cons, Nat.cast_add, Nat.cast_one]
  linarith

theorem floatUnits_one : floatUnits 1 1 = 2 ^ 149 := by
  rw [floatUnits_of_log 1 1 126 (by norm_num) (by norm_num) (by norm_num)]
  decide

theorem narrowToFloat_one : narrowToFloat 1 = 1 := by
  unfold narrowToFloat
  simp only [Rat.num_one, Rat.den_one, Int.natAbs_one, floatUnits_one]
  norm_num

/-- The double `1 + 2^-30` has no single-precision representation; the nearest
`float` is `1`. -/
theorem narrowToFloat_one_add_tiny : narrowToFloat (1 + 1 / 2 ^ 30) = 1 := by
  have hx : (1 + 1 / 2 ^ 30 : ℚ) = ((2 ^ 30 + 1 : ℤ) : ℚ) / ((2 ^ 30 : ℤ) : ℚ) := by norm_num
  have hnum : (1 + 1 / 2 ^ 30 : ℚ).num = 2 ^ 30 + 1 := by
    rw [hx]
    exact Rat.num_div_eq_of_coprime (by decide) (by norm_num)
  have hden : (1 + 1 / 2 ^ 30 : ℚ).den = 2 ^ 30 := by
    rw [hx]
    have := Rat.den_div_eq_of_coprime (a := 2 ^ 30 + 1) (b := 2 ^ 30) (by decide) (by norm_num)
    exact_mod_cast this
  have hu : floatUnits (2 ^ 30 + 1) (2 ^ 30) = 2 ^ 149 := by
    rw [floatUnits_of_log _ _ 126 (by norm_num) (by norm_num) (by norm_num)]
    decide
  have habs : (2 ^ 30 + 1 : ℤ).natAbs = 2 ^ 30 + 1 := by decide
  unfold narrowToFloat
  rw [hnum, hden, habs, hu]
  norm_num

theorem set_length_append {α : Type} (pre : List α) (d c : α) (post : List α) :
    (pre ++ d :: post).set pre.length c = (pre ++ [c]) ++ post := by
  induction pre with
  | nil => simp
  | cons a pre ih => simp [ih]

theorem fillVertices_append (V : MatrixV) (d : Point3f) :
    ∀ pre post : List Point3f,
      fillVertices V pre.length (pre ++ (List.replicate V.length d ++ post))
        = pre ++ (V.map coordOfRow ++ post) := by
  induction V with
  | nil => intro pre post; simp [fillVertices]
  | cons r rest ih =>
    intro pre post
    have h := ih (pre ++ [coordOfRow r]) post
    simp only [List.length_append, List.length_singleton] at h
    simp only [fillVertices, List.length_cons, List.replicate_succ, List.cons_append,
      set_length_append, List.map_cons]
    rw [h]
    simp

theorem vcg_mesh_from_v_vert (V : MatrixV) (m : MyMesh) :
    (vcg_mesh_from_v V m).vert = m.vert ++ V.map coordOfRow := by
  have h := fillVertices_append V ⟨0, 0, 0⟩ m.vert []
  simp only [List.append_nil] at h
  simp [vcg_mesh_from_v, UpdateBounding.Box, Allocator.AddVertices, h]

theorem vcg_mesh_from_v_vn (V : MatrixV) (m : MyMesh) :
    (vcg_mesh_from_v V m).vn = m.vn + V.length := by
  simp [vcg_mesh_from_v, UpdateBounding.Box, Allocator.AddVertices]

theorem ivpAt_inRange (base n : ℕ) (j : ℤ) (h : 0 ≤ j ∧ j < n) :
    ivpAt base n j = some (base + j.toNat) := by
  simp [ivpAt, h]

theorem fillFaces_append (base n : ℕ) (F : MatrixF) (hF : FacesInRange n F) (d : MyFace) :
    ∀ pre post : List MyFace,
      fillFaces base n F pre.length (pre ++ (List.replicate F.length d ++ post))
        = .ok (pre ++ (F.map (fun r => (⟨base + r.1.toNat, base + r.2.1.toNat,
            base + r.2.2.toNat⟩ : MyFace)) ++ post)) := by
  induction F with
  | nil => intro pre post; simp [fillFaces]
  | cons r rest ih =>
    intro pre post
    have hr := hF r (List.mem_cons_self _ _)
    have hrest : FacesInRange n rest := fun q hq => hF q (List.mem_cons_of_mem _ hq)
    have h := ih hrest (pre ++ [⟨base + r.1.toNat, base + r.2.1.toNat, base + r.2.2.toNat⟩]) post
    simp only [List.length_append, List.length_singleton] at h
    simp only [fillFaces, ivpAt_inRange _ _ _ hr.1, ivpAt_inRange _ _ _ hr.2.1,
      ivpAt_inRange _ _ _ hr.2.2, List.length_cons, List.replicate_succ, List.cons_append,
      set_length_append, List.map_cons]
    rw [h]
    simp

theorem fillFaces_never_fails (base n : ℕ) (e : SamplingError) :
    ∀ (F : MatrixF) (i : ℕ) (fs : List MyFace), fillFaces base n F i fs ≠ .fail e := by
  intro F
  induction F with
  | nil => intro i fs h; simp [fillFaces] at h
  | cons r rest ih =>
    intro i fs
    unfold fillFaces
    split
    · exact ih _ _
    · intro h; cases h

theorem fillFaces_outOfRange (base n : ℕ) :
    ∀ (F : MatrixF) (i : ℕ) (fs : List MyFace), ¬ FacesInRange n F →
      fillFaces base n F i fs = .undefined := by
  intro F
  induction F with
  | nil => intro i fs h; exact absurd (fun r hr => by cases hr) h
  | cons r rest ih =>
    intro i fs h
    unfold fillFaces
    split
    · next a b c ha hb hc =>
      apply ih
      intro hrest
      apply h
      intro q hq
      rcases List.mem_cons.1 hq with rfl | hq
      · refine ⟨?_, ?_, ?_⟩
        · by_contra hcon; simp [ivpAt, hcon] at ha
        · by_contra hcon; simp [ivpAt, hcon] at hb
        · by_contra hcon; simp [ivpAt, hcon] at hc
      · exact hrest q hq
    · rfl

theorem vcg_mesh_from_vf_inRange (V : MatrixV) (F : MatrixF) (hF : FacesInRange V.length F) :
    vcg_mesh_from_vf V F MyMesh.empty
      = .ok ⟨V.map coordOfRow, F.map faceOfRow, V.length, F.length,
          boxOf (V.map coordOfRow)⟩ := by
  have hv := fillVertices_append V ⟨0, 0, 0⟩ [] []
  have hf := fillFaces_append 0 V.length F hF ⟨0, 0, 0⟩ [] []
  simp only [List.append_nil, List.nil_append, List.length_nil] at hv hf
  simp only [vcg_mesh_from_vf, MyMesh.empty, Allocator.AddVertices, Allocator.AddFaces,
    List.nil_append, List.length_nil, hv, hf, Outcome.bind, UpdateBounding.Box, Nat.zero_add]
  simp [faceOfRow]

theorem vcg_mesh_to_from_v (V : MatrixV) :
    vcg_mesh_to_v (vcg_mesh_from_v V MyMesh.empty)
      = .ok (V.map fun r => rowOfCoord (coordOfRow r)) := by
  unfold vcg_mesh_to_v
  rw [vcg_mesh_from_v_vert, vcg_mesh_from_v_vn]
  simp [MyMesh.empty]

theorem rowOfCoord_coordOfRow (r : ℚ × ℚ × ℚ)
    (h : IsFloat r.1 ∧ IsFloat r.2.1 ∧ IsFloat r.2.2) : rowOfCoord (coordOfRow r) = r := by
  obtain ⟨a, b, c⟩ := r
  obtain ⟨ha, hb, hc⟩ := h
  simp only [IsFloat] at ha hb hc
  simp [rowOfCoord, coordOfRow, ha.2, hb.2, hc.2]

theorem map_row_of_allFloat (V : MatrixV) (h : AllFloat V) :
    V.map (fun r => rowOfCoord (coordOfRow r)) = V := by
  induction V with
  | nil => rfl
  | cons r rest ih =>
    rw [List.map_cons, rowOfCoord_coordOfRow r (h r (List.mem_cons_self _ _)),
      ih fun q hq => h q (List.mem_cons_of_mem _ hq)]

theorem inFloatRange_zero : InFloatRange 0 := by
  norm_num [InFloatRange]

theorem inFloatRange_one : InFloatRange 1 := by
  norm_num [InFloatRange]

theorem isFloat_zero : IsFloat 0 := ⟨inFloatRange_zero, narrowToFloat_zero⟩

theorem isFloat_one : IsFloat 1 := ⟨inFloatRange_one, narrowToFloat_one⟩

theorem allInFloatRange_of_allFloat (V : MatrixV) (h : AllFloat V) : AllInFloatRange V :=
  fun r hr => ⟨(h r hr).1.1, (h r hr).2.1.1, (h r hr).2.2.1⟩

theorem isFloat_coordOfRow (r : ℚ × ℚ × ℚ)
    (h : InFloatRange r.1 ∧ InFloatRange r.2.1 ∧ InFloatRange r.2.2) :
    IsFloat (coordOfRow r).x ∧ IsFloat (coordOfRow r).y ∧ IsFloat (coordOfRow r).z :=
  ⟨isFloat_narrowToFloat _ h.1, isFloat_narrowToFloat _ h.2.1, isFloat_narrowToFloat _ h.2.2⟩

/-- The stored positions of an array within the range of `float` are finite
single-precision values. -/
theorem allFloat_stored_rows (V : MatrixV) (hV : AllInFloatRange V) :
    AllFloat (V.map fun r => rowOfCoord (coordOfRow r)) := by
  intro r hr
  obtain ⟨r₀, hr₀, rfl⟩ := List.mem_map.1 hr
  exact isFloat_coordOfRow r₀ (hV r₀ hr₀)

/-- The bound of `InFloatRange` is where single precision ends: `2^128` is left
alone by the rounding but is not a `float`. -/
theorem not_isFloat_two_pow_128 : ¬ IsFloat (2 ^ 128) := by
  intro h
  have := h.1
  norm_num [InFloatRange] at this

/-! ### C6: array -> mesh -> array -/

/-- C6, as stated, fails: the one-row `double` array `[(1 + 2^-30, 0, 0)]` comes
back from `vcg_mesh_from_v` / `vcg_mesh_to_v` as `[(1, 0, 0)]`, because the
mesh stores `float` coordinates. -/
theorem vcg_mesh_roundtrip_not_identity :
    vcg_mesh_to_v (vcg_mesh_from_v [(1 + 1 / 2 ^ 30, 0, 0)] MyMesh.empty) = .ok [(1, 0, 0)]
      ∧ ([(1, 0, 0)] : MatrixV) ≠ [(1 + 1 / 2 ^ 30, 0, 0)] := by
  constructor
  · rw [vcg_mesh_to_from_v]
    simp only [List.map_cons, List.map_nil, rowOfCoord, coordOfRow, narrowToFloat_one_add_tiny,
      narrowToFloat_zero]
  · norm_num

/-- C6, amended: for an `N x 3` array whose entries are within the range of
`float`, building a mesh with `vcg_mesh_from_v` and exporting it with
`vcg_mesh_to_v` yields `N` rows in the same order, each the single-precision
conversion of the corresponding input row and so made of finite
single-precision values; the rows are identical to the input when its entries
are single-precision values. -/
theorem vcg_mesh_roundtrip (V : MatrixV) (hV : AllInFloatRange V) :
    vcg_mesh_to_v (vcg_mesh_from_v V MyMesh.empty)
        = .ok (V.map fun r => rowOfCoord (coordOfRow r))
      ∧ (V.map fun r => rowOfCoord (coordOfRow r)).length = V.length
      ∧ AllFloat (V.map fun r => rowOfCoord (coordOfRow r))
      ∧ (AllFloat V → vcg_mesh_to_v (vcg_mesh_from_v V MyMesh.empty) = .ok V) := by
  refine ⟨vcg_mesh_to_from_v V, by simp, allFloat_stored_rows V hV, fun h => ?_⟩
  rw [vcg_mesh_to_from_v, map_row_of_allFloat V h]

/-- C6 at a concrete single-precision array: two rows come back unchanged. -/
theorem vcg_mesh_roundtrip_witness :
    AllInFloatRange [(0, 1, 0), (1, 1, 0)]
      ∧ vcg_mesh_to_v (vcg_mesh_from_v [(0, 1, 0), (1, 1, 0)] MyMesh.empty)
        = .ok [(0, 1, 0), (1, 1, 0)] :=
  have hfl : AllFloat [(0, 1, 0), (1, 1, 0)] := by
    intro r hr
    simp only [List.mem_cons, List.mem_singleton, List.not_mem_nil, or_false] at hr
    rcases hr with rfl | rfl
    · exact ⟨isFloat_zero, isFloat_one, isFloat_zero⟩
    · exact ⟨isFloat_one, isFloat_one, isFloat_zero⟩
  ⟨allInFloatRange_of_allFloat _ hfl,
    (vcg_mesh_roundtrip [(0, 1, 0), (1, 1, 0)] (allInFloatRange_of_allFloat _ hfl)).2.2.2 hfl⟩

/-! ### C9: face indices -/

/-- C9, as stated, fails: with one vertex and the face `(0, 0, 1)`, whose last
index is out of range, `vcg_mesh_from_vf` does not fail with `InvalidIndex`; it
reads `ivp[1]` past the end of the pointer table (undefined behaviour). -/
theorem vcg_mesh_from_vf_no_InvalidIndex :
    vcg_mesh_from_vf [(0, 0, 0)] [(0, 0, 1)] MyMesh.empty = .undefined
      ∧ vcg_mesh_from_vf [(0, 0, 0)] [(0, 0, 1)] MyMesh.empty ≠ .fail .InvalidIndex := by
  have h : vcg_mesh_from_vf [(0, 0, 0)] [(0, 0, 1)] MyMesh.empty = .undefined := by
    simp [vcg_mesh_from_vf, fillFaces, ivpAt, Outcome.bind]
  rw [h]
  exact ⟨rfl, fun h' => by cases h'⟩

/-- C9, amended: `vcg_mesh_from_vf` makes no index check.  When every face index
is in `[0, N)` it succeeds and yields the mesh with the `N` converted vertices,
one face per row referring to the indexed vertices, and the bounding box of the
vertices; it never fails with `InvalidIndex` (nor with any other reported
failure); with an index outside `[0, N)` its behaviour is undefined. -/
theorem vcg_mesh_from_vf_spec (V : MatrixV) (F : MatrixF) :
    (FacesInRange V.length F →
        vcg_mesh_from_vf V F MyMesh.empty
          = .ok ⟨V.map coordOfRow, F.map faceOfRow, V.length, F.length,
              boxOf (V.map coordOfRow)⟩)
      ∧ (∀ e, vcg_mesh_from_vf V F MyMesh.empty ≠ .fail e)
      ∧ (¬ FacesInRange V.length F → vcg_mesh_from_vf V F MyMesh.empty = .undefined) := by
  refine ⟨vcg_mesh_from_vf_inRange V F, ?_, ?_⟩
  · intro e h
    unfold vcg_mesh_from_vf at h
    simp only [] at h
    generalize hff : fillFaces _ _ _ _ _ = o at h
    cases o with
    | ok fs => simp [Outcome.bind] at h
    | fail e' => exact fillFaces_never_fails _ _ _ _ _ _ hff
    | undefined => simp [Outcome.bind] at h
  · intro hF
    unfold vcg_mesh_from_vf
    simp only []
    rw [fillFaces_outOfRange _ _ _ _ _ hF]
    rfl

/-- C9 at a concrete mesh: a triangle over three vertices is built. -/
theorem vcg_mesh_from_vf_spec_witness :
    vcg_mesh_from_vf [(0, 0, 0), (1, 0, 0), (0, 1, 0)] [(0, 1, 2)] MyMesh.empty
      = .ok ⟨[(0, 0, 0), (1, 0, 0), (0, 1, 0)].map coordOfRow, [(0, 1, 2)].map faceOfRow, 3, 1,
          boxOf ([(0, 0, 0), (1, 0, 0), (0, 1, 0)].map coordOfRow)⟩ :=
  (vcg_mesh_from_vf_spec [(0, 0, 0), (1, 0, 0), (0, 1, 0)] [(0, 1, 2)]).1 (by
    intro r hr
    simp only [List.mem_singleton] at hr
    subst hr
    simp)

/-! ## Theorems: the spatial grid -/

theorem insertBucket_of_not_mem {β : Type} (c : Cell) (b : β) :
    ∀ bs : List (Cell × List β), c ∉ bs.map Prod.fst → insertBucket bs c b = bs ++ [(c, [b])] := by
  intro bs
  induction bs with
  | nil => intro _; rfl
  | cons e rest ih =>
    intro h
    obtain ⟨c', l⟩ := e
    simp only [List.map_cons, List.mem_cons, not_or] at h
    have hne : ¬ c' = c := fun hc => h.1 hc.symm
    simp [insertBucket, hne, ih h.2]

theorem insertBucket_of_mem {β : Type} (c : Cell) (b : β) :
    ∀ bs : List (Cell × List β), (bs.map Prod.fst).Nodup → c ∈ bs.map Prod.fst →
      insertBucket bs c b = bs.map fun e => if e.1 = c then (e.1, e.2 ++ [b]) else e := by
  intro bs
  induction bs with
  | nil => intro _ h; simp at h
  | cons e rest ih =>
    intro hn h
    obtain ⟨c', l⟩ := e
    simp only [List.map_cons, List.nodup_cons] at hn
    by_cases hc : c' = c
    · subst hc
      have hrest : rest.map (fun e => if e.1 = c' then (e.1, e.2 ++ [b]) else e) = rest := by
        conv_rhs => rw [← List.map_id rest]
        apply List.map_congr_left
        intro e he
        have : e.1 ≠ c' := fun h' => hn.1 (h' ▸ List.mem_map_of_mem Prod.fst he)
        simp [this]
      simp [insertBucket, hrest]
    · have hin : c ∈ rest.map Prod.fst := by
        simp only [List.map_cons, List.mem_cons] at h
        rcases h with h | h
        · exact absurd h.symm hc
        · exact h
      simp [insertBucket, hc, ih hn.2 hin]

/-- Buckets after inserting `xs` one by one under the key function `κ`. -/
theorem insertAll_spec {β : Type} (κ : β → Cell) (xs : List β) :
    ((xs.foldl (fun acc x => insertBucket acc (κ x) x) []).map Prod.fst).Nodup
      ∧ (∀ e ∈ xs.foldl (fun acc x => insertBucket acc (κ x) x) [],
          e.2 = xs.filter (fun x => decide (κ x = e.1)) ∧ e.2 ≠ [])
      ∧ (∀ x ∈ xs, κ x ∈ (xs.foldl (fun acc x => insertBucket acc (κ x) x) []).map Prod.fst) := by
  induction xs using List.reverseRecOn with
  | nil => simp
  | append_singleton ys x ih =>
    obtain ⟨hn, hb, hk⟩ := ih
    rw [List.foldl_append]
    simp only [List.foldl_cons, List.foldl_nil]
    generalize hbs : ys.foldl (fun acc x => insertBucket acc (κ x) x) [] = bs at hn hb hk
    by_cases hmem : κ x ∈ bs.map Prod.fst
    · rw [insertBucket_of_mem _ _ _ hn hmem]
      have hkeys : (bs.map fun e => if e.1 = κ x then (e.1, e.2 ++ [x]) else e).map Prod.fst
          = bs.map Prod.fst := by
        rw [List.map_map]
        apply List.map_congr_left
        intro e _
        by_cases h : e.1 = κ x <;> simp [h]
      refine ⟨hkeys ▸ hn, ?_, ?_⟩
      · intro e he
        obtain ⟨e0, he0, rfl⟩ := List.mem_map.1 he
        obtain ⟨h1, h2⟩ := hb e0 he0
        by_cases h : e0.1 = κ x
        · simp [h, List.filter_append, h1]
        · have h' : ¬ κ x = e0.1 := fun h'' => h h''.symm
          simp only [h, if_false, List.filter_append, List.filter_cons, List.filter_nil, h',
            decide_False, Bool.false_eq_true, if_false, List.append_nil]
          exact ⟨h1, h2⟩
      · intro y hy
        rw [hkeys]
        rcases List.mem_append.1 hy with hy | hy
        · exact hk y hy
        · simp only [List.mem_singleton] at hy
          exact hy ▸ hmem
    · rw [insertBucket_of_not_mem _ _ _ hmem]
      have hnone : ys.filter (fun y => decide (κ y = κ x)) = [] := by
        rw [List.filter_eq_nil_iff]
        intro y hy hyx
        simp only [decide_eq_true_eq] at hyx
        exact hmem (hyx ▸ hk y hy)
      refine ⟨?_, ?_, ?_⟩
      · rw [List.map_append, List.nodup_append]
        refine ⟨hn, by simp, ?_⟩
        intro a ha hb'
        simp only [List.map_cons, List.map_nil, List.mem_singleton] at hb'
        exact hmem (hb' ▸ ha)
      · intro e he
        rcases List.mem_append.1 he with he | he
        · obtain ⟨h1, h2⟩ := hb e he
          have h' : ¬ κ x = e.1 := fun h'' =>
            hmem (h'' ▸ List.mem_map_of_mem Prod.fst he)
          simp only [List.filter_append, List.filter_cons, List.filter_nil, h',
            decide_False, Bool.false_eq_true, if_false, List.append_nil]
          exact ⟨h1, h2⟩
        · simp only [List.mem_singleton] at he
          subst he
          simp [List.filter_append, hnone]
      · intro y hy
        rw [List.map_append]
        rcases List.mem_append.1 hy with hy | hy
        · exact List.mem_append_left _ (hk y hy)
        · simp only [List.mem_singleton] at hy
          subst hy
          simp

theorem foldl_Insert {β γ : Type} (pos : γ → Point3f) (pay : γ → β) (xs : List γ) :
    ∀ g : SpatialGrid β,
      xs.foldl (fun g x => g.Insert (pos x) (pay x)) g
        = ⟨g.origin, g.cellSize,
            xs.foldl (fun acc x => insertBucket acc (cellAt g.origin g.cellSize (pos x)) (pay x))
              g.buckets⟩ := by
  induction xs with
  | nil => intro g; rfl
  | cons x rest ih =>
    intro g
    simp only [List.foldl_cons]
    rw [ih]
    rfl

/-! ## Theorems: grid clustering -/

theorem Build_ok {β : Type} (bbox : Option Box3f) (n : ℕ) (cs : ℚ) (hcs : 0 < cs)
    (hb : CellsWithinBound bbox n cs) :
    (SpatialGrid.Build bbox n cs : Outcome (SpatialGrid β))
      = .ok ⟨(clusterGrid bbox cs).origin, cs, []⟩ := by
  unfold SpatialGrid.Build
  rw [if_neg (not_le.2 hcs)]
  cases bbox with
  | none => rfl
  | some b =>
    simp only [CellsWithinBound] at hb
    obtain ⟨h1, h2, h3⟩ := hb
    simp only [clusterGrid]
    rw [if_neg]
    intro h
    rcases h with h | h | h <;> omega

theorem Build_ok_inv {β : Type} (bbox : Option Box3f) (n : ℕ) (cs : ℚ) (g : SpatialGrid β)
    (h : SpatialGrid.Build bbox n cs = .ok g) :
    0 < cs ∧ CellsWithinBound bbox n cs ∧ g = ⟨(clusterGrid bbox cs).origin, cs, []⟩ := by
  unfold SpatialGrid.Build at h
  by_cases hcs : cs ≤ 0
  · rw [if_pos hcs] at h; cases h
  · rw [if_neg hcs] at h
    cases bbox with
    | none =>
      simp only [Outcome.ok.injEq] at h
      exact ⟨not_le.1 hcs, trivial, h ▸ rfl⟩
    | some b =>
      simp only [] at h
      split at h
      · cases h
      · next hnot =>
        simp only [Outcome.ok.injEq] at h
        simp only [not_or, not_lt] at hnot
        exact ⟨not_le.1 hcs, hnot, h ▸ rfl⟩

theorem Build_fail_of_nonpos {β : Type} (bbox : Option Box3f) (n : ℕ) (cs : ℚ) (hcs : cs ≤ 0) :
    (SpatialGrid.Build bbox n cs : Outcome (SpatialGrid β)) = .fail .InvalidParameter := by
  unfold SpatialGrid.Build
  rw [if_pos hcs]

/-- Buckets of the clustering grid of `v`, in cell visitation order. -/
theorem AddPointSet_buckets (v : MatrixV) (cs : ℚ) :
    (Clustering.AddPointSet ⟨(clusterGrid (boxOf (v.map coordOfRow)) cs).origin, cs, []⟩
        (vcg_mesh_from_v v MyMesh.empty)).buckets
      = (v.map coordOfRow).foldl
          (fun acc p => insertBucket acc (clusterCellOf v cs p) p) [] := by
  unfold Clustering.AddPointSet
  rw [foldl_Insert (fun p => p) (fun p => p), vcg_mesh_from_v_vert]
  simp only [MyMesh.empty, List.nil_append]
  have : ∀ p, cellAt (clusterGrid (boxOf (v.map coordOfRow)) cs).origin cs p
      = clusterCellOf v cs p := by
    intro p
    unfold clusterCellOf clusterGrid
    cases boxOf (v.map coordOfRow) <;> rfl
  simp only [this]

theorem vcg_mesh_from_v_bbox (v : MatrixV) :
    (vcg_mesh_from_v v MyMesh.empty).bbox = boxOf (v.map coordOfRow) := by
  have h := fillVertices_append v ⟨0, 0, 0⟩ [] []
  simp only [List.append_nil, List.nil_append, List.length_nil] at h
  simp [vcg_mesh_from_v, UpdateBounding.Box, Allocator.AddVertices, MyMesh.empty, h]

theorem cluster_vertices_eq (v : MatrixV) (cs : ℚ) (hcs : 0 < cs)
    (hb : CellsWithinBound (boxOf (v.map coordOfRow)) 100000 cs) :
    cluster_vertices v cs
      = .ok (((v.map coordOfRow).foldl
          (fun acc p => insertBucket acc (clusterCellOf v cs p) p) []).map
            fun b => rowOfCoord (storeCoord (mean b.2))) := by
  unfold cluster_vertices Clustering.Init
  simp only [vcg_mesh_from_v_bbox]
  rw [Build_ok _ _ _ hcs hb]
  simp only [Outcome.bind, vcg_mesh_to_v, Clustering.ExtractMesh, AddPointSet_buckets]
  simp only [MyMesh.empty, List.nil_append, List.length_map, Nat.zero_add, if_true, List.map_map]
  rfl

theorem cluster_vertices_ok_inv (v : MatrixV) (cs : ℚ) (rows : MatrixV)
    (h : cluster_vertices v cs = .ok rows) :
    0 < cs ∧ CellsWithinBound (boxOf (v.map coordOfRow)) 100000 cs
      ∧ rows = ((v.map coordOfRow).foldl
          (fun acc p => insertBucket acc (clusterCellOf v cs p) p) []).map
            fun b => rowOfCoord (storeCoord (mean b.2)) := by
  have hinit : ∃ g, Clustering.Init (vcg_mesh_from_v v MyMesh.empty).bbox 100000 cs = .ok g := by
    unfold cluster_vertices at h
    simp only [] at h
    generalize Clustering.Init (vcg_mesh_from_v v MyMesh.empty).bbox 100000 cs = o at h
    cases o with
    | ok g => exact ⟨g, rfl⟩
    | fail e => simp [Outcome.bind] at h
    | undefined => simp [Outcome.bind] at h
  obtain ⟨g, hg⟩ := hinit
  rw [vcg_mesh_from_v_bbox] at hg
  obtain ⟨hcs, hb, _⟩ := Build_ok_inv _ _ _ _ hg
  refine ⟨hcs, hb, ?_⟩
  rw [cluster_vertices_eq v cs hcs hb] at h
  simp only [Outcome.ok.injEq] at h
  exact h.symm

theorem foldl_box_attained (S : List Point3f) :
    ∀ (ps : List Point3f) (b : Box3f), (∀ q ∈ ps, q ∈ S) → b.AttainedBy S →
      (ps.foldl (fun b q => (⟨b.min.inf q, b.max.sup q⟩ : Box3f)) b).AttainedBy S := by
  intro ps
  induction ps with
  | nil => intro b _ hb; exact hb
  | cons p rest ih =>
    intro b hS hb
    simp only [List.foldl_cons]
    apply ih _ (fun q hq => hS q (List.mem_cons_of_mem _ hq))
    have hp : p ∈ S := hS p (List.mem_cons_self _ _)
    obtain ⟨⟨h1, h2, h3⟩, ⟨h4, h5, h6⟩⟩ := hb
    refine ⟨⟨?_, ?_, ?_⟩, ⟨?_, ?_, ?_⟩⟩
    · rcases min_choice b.min.x p.x with h | h
      · obtain ⟨q, hq, e⟩ := h1; exact ⟨q, hq, h.trans e⟩
      · exact ⟨p, hp, h⟩
    · rcases min_choice b.min.y p.y with h | h
      · obtain ⟨q, hq, e⟩ := h2; exact ⟨q, hq, h.trans e⟩
      · exact ⟨p, hp, h⟩
    · rcases min_choice b.min.z p.z with h | h
      · obtain ⟨q, hq, e⟩ := h3; exact ⟨q, hq, h.trans e⟩
      · exact ⟨p, hp, h⟩
    · rcases max_choice b.max.x p.x with h | h
      · obtain ⟨q, hq, e⟩ := h4; exact ⟨q, hq, h.trans e⟩
      · exact ⟨p, hp, h⟩
    · rcases max_choice b.max.y p.y with h | h
      · obtain ⟨q, hq, e⟩ := h5; exact ⟨q, hq, h.trans e⟩
      · exact ⟨p, hp, h⟩
    · rcases max_choice b.max.z p.z with h | h
      · obtain ⟨q, hq, e⟩ := h6; exact ⟨q, hq, h.trans e⟩
      · exact ⟨p, hp, h⟩

theorem boxOf_attained (S : List Point3f) (b : Box3f) (h : boxOf S = some b) :
    b.AttainedBy S := by
  cases S with
  | nil => simp [boxOf] at h
  | cons p ps =>
    simp only [boxOf, Option.some.injEq] at h
    rw [← h]
    apply foldl_box_attained (p :: ps) ps _ (fun q hq => List.mem_cons_of_mem _ hq)
    have hp : p ∈ p :: ps := List.mem_cons_self _ _
    exact ⟨⟨⟨p, hp, rfl⟩, ⟨p, hp, rfl⟩, ⟨p, hp, rfl⟩⟩, ⟨⟨p, hp, rfl⟩, ⟨p, hp, rfl⟩, ⟨p, hp, rfl⟩⟩⟩

theorem cellsAlong_eq_one (a lo hi cs : ℚ)
    (h : ⌊(hi - a) / cs⌋ = ⌊(lo - a) / cs⌋) (ha : a = lo) : cellsAlong (hi - a) cs = 1 := by
  subst ha
  unfold cellsAlong
  rw [h]
  simp

/-- When all stored positions share one cell, the derived cell counts are 1. -/
theorem cellsWithinBound_of_single_cell (v : MatrixV) (cs : ℚ)
    (hone : ∀ p ∈ v.map coordOfRow, ∀ q ∈ v.map coordOfRow,
      clusterCellOf v cs p = clusterCellOf v cs q) :
    CellsWithinBound (boxOf (v.map coordOfRow)) 100000 cs := by
  cases hbox : boxOf (v.map coordOfRow) with
  | none => trivial
  | some b =>
    obtain ⟨⟨⟨p1, hp1, e1⟩, ⟨p2, hp2, e2⟩, ⟨p3, hp3, e3⟩⟩,
      ⟨⟨q1, hq1, f1⟩, ⟨q2, hq2, f2⟩, ⟨q3, hq3, f3⟩⟩⟩ := boxOf_attained _ _ hbox
    have hcell : ∀ p, clusterCellOf v cs p
        = (⌊(p.x - b.min.x) / cs⌋, ⌊(p.y - b.min.y) / cs⌋, ⌊(p.z - b.min.z) / cs⌋) := by
      intro p
      simp [clusterCellOf, hbox, clusterGrid, SpatialGrid.cellOf, cellAt]
    have hx := hone q1 hq1 p1 hp1
    have hy := hone q2 hq2 p2 hp2
    have hz := hone q3 hq3 p3 hp3
    rw [hcell, hcell] at hx hy hz
    simp only [Prod.mk.injEq] at hx hy hz
    simp only [CellsWithinBound]
    rw [f1, f2, f3, cellsAlong_eq_one b.min.x p1.x q1.x cs hx.1 e1,
      cellsAlong_eq_one b.min.y p2.y q2.y cs hy.2.1 e2,
      cellsAlong_eq_one b.min.z p3.z q3.z cs hz.2.2 e3]
    norm_num

theorem mem_of_filter_ne_nil {α : Type} (f : α → Bool) (l : List α) (h : l.filter f ≠ []) :
    ∃ x ∈ l, f x = true := by
  by_contra hcon
  apply h
  rw [List.filter_eq_nil_iff]
  intro x hx hfx
  exact hcon ⟨x, hx, hfx⟩

/-- The cells that hold a bucket are exactly the cells of the inserted items. -/
theorem insertAll_keys {β : Type} (κ : β → Cell) (xs : List β) (c : Cell) :
    c ∈ (xs.foldl (fun acc x => insertBucket acc (κ x) x) []).map Prod.fst ↔ c ∈ xs.map κ := by
  obtain ⟨_, hb, hk⟩ := insertAll_spec κ xs
  constructor
  · intro hc
    obtain ⟨e, he, rfl⟩ := List.mem_map.1 hc
    obtain ⟨h1, h2⟩ := hb e he
    obtain ⟨x, hx, hfx⟩ := mem_of_filter_ne_nil _ _ (h1 ▸ h2)
    simp only [decide_eq_true_eq] at hfx
    exact hfx ▸ List.mem_map_of_mem κ hx
  · intro hc
    obtain ⟨x, hx, rfl⟩ := List.mem_map.1 hc
    exact hk x hx

theorem insertAll_length {β : Type} (κ : β → Cell) (xs : List β) :
    (xs.foldl (fun acc x => insertBucket acc (κ x) x) []).length = (xs.map κ).toFinset.card := by
  obtain ⟨hn, _, _⟩ := insertAll_spec κ xs
  have hset : ((xs.foldl (fun acc x => insertBucket acc (κ x) x) []).map Prod.fst).toFinset
      = (xs.map κ).toFinset := by
    ext c
    simp only [List.mem_toFinset]
    exact insertAll_keys κ xs c
  rw [← hset, List.toFinset_card_of_nodup hn, List.length_map]

/-- With every item in the same cell, there is one bucket and it holds them all. -/
theorem insertAll_single {β : Type} (κ : β → Cell) (xs : List β) (hne : xs ≠ [])
    (hone : ∀ x ∈ xs, ∀ y ∈ xs, κ x = κ y) :
    ∃ c, xs.foldl (fun acc x => insertBucket acc (κ x) x) [] = [(c, xs)] := by
  obtain ⟨x0, rest, rfl⟩ := List.exists_cons_of_ne_nil hne
  have hlen := insertAll_length κ (x0 :: rest)
  have hcard : ((x0 :: rest).map κ).toFinset = {κ x0} := by
    ext c
    simp only [List.mem_toFinset, Finset.mem_singleton]
    constructor
    · intro hc
      obtain ⟨x, hx, rfl⟩ := List.mem_map.1 hc
      exact hone x hx x0 (List.mem_cons_self _ _)
    · intro hc
      exact hc ▸ List.mem_map_of_mem κ (List.mem_cons_self _ _)
  rw [hcard, Finset.card_singleton] at hlen
  obtain ⟨_, hb, _⟩ := insertAll_spec κ (x0 :: rest)
  generalize (x0 :: rest).foldl (fun acc x => insertBucket acc (κ x) x) [] = bs at hlen hb
  match bs, hlen, hb with
  | [e], _, hb =>
    obtain ⟨h1, _⟩ := hb e (List.mem_singleton_self e)
    refine ⟨e.1, ?_⟩
    have hall : (x0 :: rest).filter (fun x => decide (κ x = e.1)) = x0 :: rest := by
      rw [List.filter_eq_self]
      intro x hx
      obtain ⟨y, hy, hfy⟩ := mem_of_filter_ne_nil _ _ (h1 ▸ (hb e (List.mem_singleton_self e)).2)
      simp only [decide_eq_true_eq] at hfy ⊢
      rw [← hfy]
      exact hone x hx y hy
    obtain ⟨c, l⟩ := e
    simp only at h1 hall ⊢
    rw [h1, hall]

theorem cluster_vertices_single_cell (v : MatrixV) (cs : ℚ) (hv : v ≠ []) (hcs : 0 < cs)
    (hone : ∀ p ∈ v.map coordOfRow, ∀ q ∈ v.map coordOfRow,
      clusterCellOf v cs p = clusterCellOf v cs q) :
    cluster_vertices v cs = .ok [rowOfCoord (storeCoord (mean (v.map coordOfRow)))] := by
  rw [cluster_vertices_eq v cs hcs (cellsWithinBound_of_single_cell v cs hone)]
  obtain ⟨c, hc⟩ := insertAll_single (clusterCellOf v cs) (v.map coordOfRow)
    (by simpa using hv) hone
  rw [hc]
  rfl

theorem coordOfRow_of_isFloat (r : ℚ × ℚ × ℚ)
    (h : IsFloat r.1 ∧ IsFloat r.2.1 ∧ IsFloat r.2.2) : coordOfRow r = ⟨r.1, r.2.1, r.2.2⟩ := by
  obtain ⟨ha, hb, hc⟩ := h
  simp only [IsFloat] at ha hb hc
  simp [coordOfRow, ha, hb, hc]

theorem map_coordOfRow_of_allFloat (V : MatrixV) (h : AllFloat V) :
    V.map coordOfRow = V.map fun r => ⟨r.1, r.2.1, r.2.2⟩ :=
  List.map_congr_left fun r hr => coordOfRow_of_isFloat r (h r hr)

theorem coordOfRow_zero_zero_zero : coordOfRow (0, 0, 0) = ⟨0, 0, 0⟩ := by
  simp [coordOfRow, narrowToFloat_zero]

theorem coordOfRow_one_zero_zero : coordOfRow (1, 0, 0) = ⟨1, 0, 0⟩ := by
  simp [coordOfRow, narrowToFloat_zero, narrowToFloat_one]

theorem coordOfRow_tiny : coordOfRow (1 + 1 / 2 ^ 30, 0, 0) = ⟨1, 0, 0⟩ := by
  simp only [coordOfRow, narrowToFloat_zero, narrowToFloat_one_add_tiny]

/-- Evaluation of `narrowToFloat` at a non-negative fraction above the
subnormal range, from the position of its leading bit. -/
theorem narrowToFloat_of_units (x : ℚ) (a b s k : ℕ) (hb : 0 < b) (hx : x = (a : ℚ) / b)
    (h₀ : 2 ^ 24 ≤ a * 2 ^ 149 / b) (h₁ : 2 ^ (s + 23) ≤ a * 2 ^ 149 / b)
    (h₂ : a * 2 ^ 149 / b < 2 ^ (s + 24))
    (hk : roundHalfEvenDiv (a * 2 ^ 149) (b * 2 ^ s) = k) :
    narrowToFloat x = ((k * 2 ^ s : ℕ) : ℚ) / 2 ^ 149 := by
  rw [hx, narrowToFloat_natDiv a b hb, floatUnits_of_log a b s h₀ h₁ h₂, hk]

theorem narrowToFloat_half : narrowToFloat (1 / 2) = 1 / 2 := by
  rw [narrowToFloat_of_units (1 / 2) 1 2 125 (2 ^ 23) (by norm_num) (by norm_num)
    (by norm_num) (by norm_num) (by norm_num) (by decide)]
  norm_num

/-- The double `2^-24 + 2^-50` is not a `float`; the nearest one is `2^-24`. -/
theorem narrowToFloat_near_two_pow_neg_24 :
    narrowToFloat (1 / 2 ^ 24 + 1 / 2 ^ 50) = 1 / 2 ^ 24 := by
  rw [narrowToFloat_of_units (1 / 2 ^ 24 + 1 / 2 ^ 50) (2 ^ 26 + 1) (2 ^ 50) 102 (2 ^ 23)
    (by norm_num) (by norm_num) (by norm_num) (by norm_num) (by norm_num) (by decide)]
  norm_num

/-- The value `1/2 + 2^-25` lies halfway between the neighbouring `float`s `1/2`
and `1/2 + 2^-24`; the tie goes to the even significand, `1/2`. -/
theorem narrowToFloat_half_tie : narrowToFloat (1 / 2 + 1 / 2 ^ 25) = 1 / 2 := by
  rw [narrowToFloat_of_units (1 / 2 + 1 / 2 ^ 25) (2 ^ 24 + 1) (2 ^ 25) 125 (2 ^ 23)
    (by norm_num) (by norm_num) (by norm_num) (by norm_num) (by norm_num) (by decide)]
  norm_num

/-- The value `1/2 + 2^-25 + 2^-51` lies above that midpoint and converts to
`1/2 + 2^-24`. -/
theorem narrowToFloat_above_half_tie :
    narrowToFloat (1 / 2 + 1 / 2 ^ 25 + 1 / 2 ^ 51) = 1 / 2 + 1 / 2 ^ 24 := by
  rw [narrowToFloat_of_units (1 / 2 + 1 / 2 ^ 25 + 1 / 2 ^ 51) (2 ^ 50 + 2 ^ 26 + 1) (2 ^ 51) 125
    (2 ^ 23 + 1) (by norm_num) (by norm_num) (by norm_num) (by norm_num) (by norm_num)
    (by decide)]
  norm_num

theorem inFloatRange_of_bounds (x : ℚ) (h₁ : -(2 ^ 127) < x) (h₂ : x < 2 ^ 127) :
    InFloatRange x := by
  unfold InFloatRange
  rw [abs_lt]
  constructor
  · refine lt_trans ?_ h₁
    norm_num
  · refine lt_trans h₂ ?_
    norm_num

/-- The representative stored for a non-empty set of positions within the range
of `float` is made of finite single-precision values. -/
theorem isFloat_storeCoord_mean (ps : List Point3f) (hps : ps ≠ [])
    (h : ∀ p ∈ ps, InFloatRange p.x ∧ InFloatRange p.y ∧ InFloatRange p.z) :
    IsFloat (storeCoord (mean ps)).x ∧ IsFloat (storeCoord (mean ps)).y
      ∧ IsFloat (storeCoord (mean ps)).z := by
  have hx := inFloatRange_sum_div_length (ps.map Point3f.x) (by simpa using hps) (by
    intro x hx
    obtain ⟨p, hp, rfl⟩ := List.mem_map.1 hx
    exact (h p hp).1)
  have hy := inFloatRange_sum_div_length (ps.map Point3f.y) (by simpa using hps) (by
    intro x hx
    obtain ⟨p, hp, rfl⟩ := List.mem_map.1 hx
    exact (h p hp).2.1)
  have hz := inFloatRange_sum_div_length (ps.map Point3f.z) (by simpa using hps) (by
    intro x hx
    obtain ⟨p, hp, rfl⟩ := List.mem_map.1 hx
    exact (h p hp).2.2)
  rw [List.length_map] at hx hy hz
  exact ⟨isFloat_narrowToFloat _ hx, isFloat_narrowToFloat _ hy, isFloat_narrowToFloat _ hz⟩

theorem inFloatRange_stored (v : MatrixV) (hV : AllInFloatRange v) :
    ∀ p ∈ v.map coordOfRow, InFloatRange p.x ∧ InFloatRange p.y ∧ InFloatRange p.z := by
  intro p hp
  obtain ⟨r, hr, rfl⟩ := List.mem_map.1 hp
  have h := isFloat_coordOfRow r (hV r hr)
  exact ⟨h.1.1, h.2.1.1, h.2.2.1⟩

theorem coordOfRow_near_two_pow_neg_24 :
    coordOfRow (1 / 2 ^ 24 + 1 / 2 ^ 50, 0, 0) = ⟨1 / 2 ^ 24, 0, 0⟩ := by
  simp only [coordOfRow, narrowToFloat_zero, narrowToFloat_near_two_pow_neg_24]

/-! ### C4: cluster representatives -/

/-- C4, as stated, fails: for the two-point `double` array
`[(1, 0, 0), (2^-24 + 2^-50, 0, 0)]`, whose entries are within the range of
`float`, and cell size 2, `cluster_vertices` returns the single point
`(1/2, 0, 0)`.  That is not the mean of the input points
`(1/2 + 2^-25 + 2^-51, 0, 0)`, nor the mean of the stored positions
`(1/2 + 2^-25, 0, 0)`, nor the `float` nearest to the mean of the input points
`(1/2 + 2^-24, 0, 0)`. -/
theorem cluster_vertices_not_input_mean :
    AllInFloatRange [(1, 0, 0), (1 / 2 ^ 24 + 1 / 2 ^ 50, 0, 0)]
      ∧ cluster_vertices [(1, 0, 0), (1 / 2 ^ 24 + 1 / 2 ^ 50, 0, 0)] 2 = .ok [(1 / 2, 0, 0)]
      ∧ ((1 / 2, 0, 0) : ℚ × ℚ × ℚ)
          ≠ rowOfCoord (mean [⟨1, 0, 0⟩, ⟨1 / 2 ^ 24 + 1 / 2 ^ 50, 0, 0⟩])
      ∧ ((1 / 2, 0, 0) : ℚ × ℚ × ℚ)
          ≠ rowOfCoord (mean ([(1, 0, 0), (1 / 2 ^ 24 + 1 / 2 ^ 50, 0, 0)].map coordOfRow))
      ∧ ((1 / 2, 0, 0) : ℚ × ℚ × ℚ)
          ≠ rowOfCoord (storeCoord (mean [⟨1, 0, 0⟩, ⟨1 / 2 ^ 24 + 1 / 2 ^ 50, 0, 0⟩])) := by
  have hm₁ : mean [⟨1, 0, 0⟩, ⟨1 / 2 ^ 24 + 1 / 2 ^ 50, 0, 0⟩]
      = ⟨1 / 2 + 1 / 2 ^ 25 + 1 / 2 ^ 51, 0, 0⟩ := by
    norm_num [mean]
  have hm₂ : mean [⟨1, 0, 0⟩, ⟨1 / 2 ^ 24, 0, 0⟩] = ⟨1 / 2 + 1 / 2 ^ 25, 0, 0⟩ := by
    norm_num [mean]
  refine ⟨?_, ?_, ?_, ?_, ?_⟩
  · intro r hr
    simp only [List.mem_cons, List.mem_singleton, List.not_mem_nil, or_false] at hr
    rcases hr with rfl | rfl
    · exact ⟨inFloatRange_one, inFloatRange_zero, inFloatRange_zero⟩
    · exact ⟨inFloatRange_of_bounds _ (by norm_num) (by norm_num), inFloatRange_zero,
        inFloatRange_zero⟩
  · rw [cluster_vertices_single_cell _ 2 (by simp) (by norm_num) (by
      intro p hp q hq
      simp only [List.map_cons, List.map_nil, coordOfRow_one_zero_zero,
        coordOfRow_near_two_pow_neg_24, List.mem_cons, List.mem_singleton, List.not_mem_nil,
        or_false] at hp hq
      have hc0 : clusterCellOf [(1, 0, 0), (1 / 2 ^ 24 + 1 / 2 ^ 50, 0, 0)] 2 ⟨1, 0, 0⟩
          = (0, 0, 0) := by
        simp only [clusterCellOf, List.map_cons, List.map_nil, coordOfRow_one_zero_zero,
          coordOfRow_near_two_pow_neg_24, boxOf, List.foldl_cons, List.foldl_nil, clusterGrid,
          SpatialGrid.cellOf, cellAt, Point3f.inf, Point3f.sup]
        norm_num
      have hc1 : clusterCellOf [(1, 0, 0), (1 / 2 ^ 24 + 1 / 2 ^ 50, 0, 0)] 2
          ⟨1 / 2 ^ 24, 0, 0⟩ = (0, 0, 0) := by
        simp only [clusterCellOf, List.map_cons, List.map_nil, coordOfRow_one_zero_zero,
          coordOfRow_near_two_pow_neg_24, boxOf, List.foldl_cons, List.foldl_nil, clusterGrid,
          SpatialGrid.cellOf, cellAt, Point3f.inf, Point3f.sup]
        norm_num
      rcases hp with rfl | rfl <;> rcases hq with rfl | rfl <;> simp only [hc0, hc1])]
    simp only [List.map_cons, List.map_nil, coordOfRow_one_zero_zero,
      coordOfRow_near_two_pow_neg_24, hm₂, storeCoord, rowOfCoord, narrowToFloat_half_tie,
      narrowToFloat_zero]
  · rw [hm₁]
    norm_num [rowOfCoord]
  · simp only [List.map_cons, List.map_nil, coordOfRow_one_zero_zero,
      coordOfRow_near_two_pow_neg_24, hm₂]
    norm_num [rowOfCoord]
  · rw [hm₁]
    simp only [storeCoord, rowOfCoord, narrowToFloat_above_half_tie, narrowToFloat_zero]
    norm_num

/-- C4, amended: for a non-empty array whose entries are within the range of
`float` and `cell_size > 0`, each point returned by `cluster_vertices` is the
single-precision conversion of the arithmetic mean of exactly the stored
positions (the input points converted to single precision) that fall in one
occupied grid cell, and is made of finite single-precision values; the call
returns whenever the derived cell counts are within the bound 100000; when a
single cell contains all the stored positions the result is exactly one point,
the converted mean of all of them.  For an array of single-precision values the
stored positions are the input points. -/
theorem cluster_vertices_mean (v : MatrixV) (cell_size : ℚ) (hv : v ≠ [])
    (hcs : 0 < cell_size) (hV : AllInFloatRange v) :
    (CellsWithinBound (boxOf (v.map coordOfRow)) 100000 cell_size →
        ∃ rows, cluster_vertices v cell_size = .ok rows)
      ∧ (∀ rows, cluster_vertices v cell_size = .ok rows → ∀ r ∈ rows, ∃ c : Cell,
          (v.map coordOfRow).filter (fun p => decide (clusterCellOf v cell_size p = c)) ≠ []
            ∧ r = rowOfCoord (storeCoord (mean
              ((v.map coordOfRow).filter fun p => decide (clusterCellOf v cell_size p = c))))
            ∧ IsFloat r.1 ∧ IsFloat r.2.1 ∧ IsFloat r.2.2)
      ∧ ((∀ p ∈ v.map coordOfRow, ∀ q ∈ v.map coordOfRow,
            clusterCellOf v cell_size p = clusterCellOf v cell_size q) →
          cluster_vertices v cell_size
            = .ok [rowOfCoord (storeCoord (mean (v.map coordOfRow)))])
      ∧ (AllFloat v → v.map coordOfRow = v.map fun r => ⟨r.1, r.2.1, r.2.2⟩) := by
  refine ⟨fun hb => ⟨_, cluster_vertices_eq v cell_size hcs hb⟩, ?_,
    cluster_vertices_single_cell v cell_size hv hcs, map_coordOfRow_of_allFloat v⟩
  intro rows hrows r hr
  obtain ⟨_, _, rfl⟩ := cluster_vertices_ok_inv v cell_size rows hrows
  obtain ⟨e, he, rfl⟩ := List.mem_map.1 hr
  obtain ⟨h1, h2⟩ := (insertAll_spec (clusterCellOf v cell_size) (v.map coordOfRow)).2.1 e he
  have hmem : ∀ p ∈ e.2, InFloatRange p.x ∧ InFloatRange p.y ∧ InFloatRange p.z := by
    intro p hp
    rw [h1] at hp
    exact inFloatRange_stored v hV p (List.mem_of_mem_filter hp)
  exact ⟨e.1, h1 ▸ h2, by rw [← h1], isFloat_storeCoord_mean e.2 h2 hmem⟩

/-- C4 at a concrete input: two points in one cell of size 2 give their midpoint. -/
theorem cluster_vertices_mean_witness :
    AllInFloatRange [(0, 0, 0), (1, 0, 0)]
      ∧ cluster_vertices [(0, 0, 0), (1, 0, 0)] 2 = .ok [(1 / 2, 0, 0)] := by
  have hV : AllInFloatRange [(0, 0, 0), (1, 0, 0)] := by
    intro r hr
    simp only [List.mem_cons, List.mem_singleton, List.not_mem_nil, or_false] at hr
    rcases hr with rfl | rfl
    · exact ⟨inFloatRange_zero, inFloatRange_zero, inFloatRange_zero⟩
    · exact ⟨inFloatRange_one, inFloatRange_zero, inFloatRange_zero⟩
  have hm : mean [⟨0, 0, 0⟩, ⟨1, 0, 0⟩] = ⟨1 / 2, 0, 0⟩ := by
    norm_num [mean]
  have h := (cluster_vertices_mean [(0, 0, 0), (1, 0, 0)] 2 (by simp) (by norm_num) hV).2.2.1 (by
    intro p hp q hq
    simp only [List.map_cons, List.map_nil, coordOfRow_zero_zero_zero, coordOfRow_one_zero_zero,
      List.mem_cons, List.mem_singleton, List.not_mem_nil, or_false] at hp hq
    have hc0 : clusterCellOf [(0, 0, 0), (1, 0, 0)] 2 ⟨0, 0, 0⟩ = (0, 0, 0) := by
      simp only [clusterCellOf, List.map_cons, List.map_nil, coordOfRow_zero_zero_zero,
        coordOfRow_one_zero_zero, boxOf, List.foldl_cons, List.foldl_nil, clusterGrid,
        SpatialGrid.cellOf, cellAt, Point3f.inf, Point3f.sup]
      norm_num
    have hc1 : clusterCellOf [(0, 0, 0), (1, 0, 0)] 2 ⟨1, 0, 0⟩ = (0, 0, 0) := by
      simp only [clusterCellOf, List.map_cons, List.map_nil, coordOfRow_zero_zero_zero,
        coordOfRow_one_zero_zero, boxOf, List.foldl_cons, List.foldl_nil, clusterGrid,
        SpatialGrid.cellOf, cellAt, Point3f.inf, Point3f.sup]
      norm_num
    rcases hp with rfl | rfl <;> rcases hq with rfl | rfl <;> simp only [hc0, hc1])
  refine ⟨hV, ?_⟩
  rw [h]
  simp only [List.map_cons, List.map_nil, coordOfRow_zero_zero_zero, coordOfRow_one_zero_zero,
    hm, storeCoord, rowOfCoord, narrowToFloat_half, narrowToFloat_zero]

/-! ### C5: number of clusters -/

theorem candidatesFrom_pos (ps : List Point3f) :
    ∀ i, (candidatesFrom i ps).map Sample.pos = ps := by
  induction ps with
  | nil => intro i; rfl
  | cons p rest ih => intro i; simp [candidatesFrom, ih]

theorem candidatesFrom_src_ge (ps : List Point3f) :
    ∀ i, ∀ s ∈ candidatesFrom i ps, i ≤ s.src := by
  induction ps with
  | nil => intro i s hs; simp [candidatesFrom] at hs
  | cons p rest ih =>
    intro i s hs
    simp only [candidatesFrom, List.mem_cons] at hs
    rcases hs with rfl | hs
    · exact le_rfl
    · exact Nat.le_of_succ_le (ih (i + 1) s hs)

theorem candidatesFrom_nodup (ps : List Point3f) : ∀ i, (candidatesFrom i ps).Nodup := by
  induction ps with
  | nil => intro i; simp [candidatesFrom]
  | cons p rest ih =>
    intro i
    simp only [candidatesFrom, List.nodup_cons]
    refine ⟨fun h => ?_, ih (i + 1)⟩
    have := candidatesFrom_src_ge rest (i + 1) _ h
    simp at this

theorem candidatesFrom_length (ps : List Point3f) :
    ∀ i, (candidatesFrom i ps).length = ps.length := by
  intro i
  rw [← List.length_map (candidatesFrom i ps) Sample.pos, candidatesFrom_pos]

theorem pruningGrid_eq (m : MyMesh) (r : ℚ) :
    pruningGrid m r = ⟨(m.bbox.map Box3f.min).getD ⟨0, 0, 0⟩, r,
      (candidatesFrom 0 m.vert).foldl (fun acc s =>
        insertBucket acc (cellAt ((m.bbox.map Box3f.min).getD ⟨0, 0, 0⟩) r s.pos) s) []⟩ :=
  foldl_Insert Sample.pos (fun s => s) (candidatesFrom 0 m.vert) _

theorem pruningGrid_cellSize (m : MyMesh) (r : ℚ) : (pruningGrid m r).cellSize = r := by
  rw [pruningGrid_eq]

/-- Every candidate sits in the bucket of its own cell. -/
theorem mem_pruningGrid (m : MyMesh) (r : ℚ) (s : Sample)
    (hs : s ∈ candidatesFrom 0 m.vert) :
    ∃ l, ((pruningGrid m r).cellOf s.pos, l) ∈ (pruningGrid m r).buckets ∧ s ∈ l := by
  rw [pruningGrid_eq]
  generalize (m.bbox.map Box3f.min).getD ⟨0, 0, 0⟩ = o
  show ∃ l, (cellAt o r s.pos, l) ∈ (candidatesFrom 0 m.vert).foldl (fun acc s =>
        insertBucket acc (cellAt o r s.pos) s) [] ∧ s ∈ l
  obtain ⟨_, hb, hk⟩ := insertAll_spec (fun s : Sample => cellAt o r s.pos)
    (candidatesFrom 0 m.vert)
  obtain ⟨e, he, hekey⟩ := List.mem_map.1 (hk s hs)
  refine ⟨e.2, ?_, ?_⟩
  · rw [← hekey]
    exact he
  · rw [(hb e he).1]
    simp [List.mem_filter, hs, hekey]

theorem axisGap_sq_le (lo hi t u : ℚ) (h1 : lo ≤ u) (h2 : u ≤ hi) :
    axisGap lo hi t ^ 2 ≤ (t - u) ^ 2 := by
  unfold axisGap
  split
  · nlinarith
  · split
    · nlinarith
    · nlinarith [sq_nonneg (t - u)]

theorem floor_cell_bounds (o cs u : ℚ) (hcs : 0 < cs) :
    o + (⌊(u - o) / cs⌋ : ℚ) * cs ≤ u ∧ u ≤ o + ((⌊(u - o) / cs⌋ : ℚ) + 1) * cs := by
  have h1 : (⌊(u - o) / cs⌋ : ℚ) ≤ (u - o) / cs := Int.floor_le _
  have h2 : (u - o) / cs < (⌊(u - o) / cs⌋ : ℚ) + 1 := Int.lt_floor_add_one _
  rw [le_div_iff₀ hcs] at h1
  rw [div_lt_iff₀ hcs] at h2
  constructor <;> linarith

/-- The region of the cell of `q` is at most as far from `p` as `q` itself. -/
theorem cellDistSq_le_distSq {β : Type} (g : SpatialGrid β) (hcs : 0 < g.cellSize)
    (p q : Point3f) : g.cellDistSq (g.cellOf q) p ≤ distSq p q := by
  unfold SpatialGrid.cellDistSq SpatialGrid.cellOf cellAt distSq
  simp only []
  have hx := floor_cell_bounds g.origin.x g.cellSize q.x hcs
  have hy := floor_cell_bounds g.origin.y g.cellSize q.y hcs
  have hz := floor_cell_bounds g.origin.z g.cellSize q.z hcs
  have h1 := axisGap_sq_le _ _ p.x q.x hx.1 hx.2
  have h2 := axisGap_sq_le _ _ p.y q.y hy.1 hy.2
  have h3 := axisGap_sq_le _ _ p.z q.z hz.1 hz.2
  linarith

/-- The neighbour query loses no violation: under the Euclidean metric, with a
positive radius, every other candidate closer than the radius is found. -/
theorem mem_conflicting (geodesic : Point3f → Point3f → ℚ) (best : Bool) (m : MyMesh)
    (r : ℚ) (hr : 0 < r) (s t : Sample) (ht : t ∈ candidatesFrom 0 m.vert) (hne : t ≠ s)
    (hd : distSq s.pos t.pos < r * r) :
    t ∈ conflicting geodesic ⟨best, false⟩ r (pruningGrid m r) s := by
  obtain ⟨l, hl, htl⟩ := mem_pruningGrid m r t ht
  unfold conflicting
  rw [List.mem_filter]
  refine ⟨?_, by simp [hne, violates, hd]⟩
  rw [List.mem_flatMap]
  refine ⟨((pruningGrid m r).cellOf t.pos, l), ?_, htl⟩
  unfold SpatialGrid.QueryNeighborCells
  rw [List.mem_filter]
  refine ⟨hl, ?_⟩
  simp only [decide_eq_true_eq]
  have hcs : 0 < (pruningGrid m r).cellSize := by rw [pruningGrid_cellSize]; exact hr
  exact le_of_lt (lt_of_le_of_lt (cellDistSq_le_distSq _ hcs s.pos t.pos) hd)

theorem of_mem_conflicting (geodesic : Point3f → Point3f → ℚ) (best : Bool)
    (g : SpatialGrid Sample) (r : ℚ) (s t : Sample)
    (h : t ∈ conflicting geodesic ⟨best, false⟩ r g s) :
    t ≠ s ∧ distSq s.pos t.pos < r * r := by
  unfold conflicting at h
  rw [List.mem_filter] at h
  simpa [violates] using h.2

theorem pruneInOrder_subset (geodesic : Point3f → Point3f → ℚ) (pp : PoissonDiskParam)
    (r : ℚ) (g : SpatialGrid Sample) :
    ∀ rest acc, ∀ s ∈ pruneInOrder geodesic pp r g rest acc, s ∈ acc ∨ s ∈ rest := by
  intro rest
  induction rest with
  | nil => intro acc s hs; exact Or.inl hs
  | cons x rest ih =>
    intro acc s hs
    unfold pruneInOrder at hs
    split at hs
    · rcases ih acc s hs with h | h
      · exact Or.inl h
      · exact Or.inr (List.mem_cons_of_mem _ h)
    · rcases ih (acc ++ [x]) s hs with h | h
      · rcases List.mem_append.1 h with h | h
        · exact Or.inl h
        · exact Or.inr (by simp only [List.mem_singleton] at h; simp [h])
      · exact Or.inr (List.mem_cons_of_mem _ h)

theorem pruneBestChoice_sublist (geodesic : Point3f → Point3f → ℚ) (pp : PoissonDiskParam)
    (r : ℚ) (g : SpatialGrid Sample) :
    ∀ fuel alive, (pruneBestChoice geodesic pp r g fuel alive).Sublist alive := by
  intro fuel
  induction fuel with
  | zero => intro alive; exact List.Sublist.refl _
  | succ fuel ih =>
    intro alive
    unfold pruneBestChoice
    split
    · exact List.Sublist.refl _
    · exact (ih _).trans (List.filter_sublist _)

theorem selectForRemoval_none (geodesic : Point3f → Point3f → ℚ) (pp : PoissonDiskParam)
    (r : ℚ) (g : SpatialGrid Sample) (alive : List Sample)
    (h : selectForRemoval geodesic pp r g alive = none) :
    ∀ s ∈ alive, conflictCount geodesic pp r g alive s = 0 := by
  unfold selectForRemoval at h
  rw [List.argmin_eq_none, List.filter_eq_nil_iff] at h
  intro s hs
  have := h s hs
  simpa using this

theorem selectForRemoval_some (geodesic : Point3f → Point3f → ℚ) (pp : PoissonDiskParam)
    (r : ℚ) (g : SpatialGrid Sample) (alive : List Sample) (s : Sample)
    (h : selectForRemoval geodesic pp r g alive = some s) : s ∈ alive := by
  unfold selectForRemoval at h
  exact List.mem_of_mem_filter (List.argmin_mem h)

theorem length_filter_ne_lt (alive : List Sample) (s : Sample) (hs : s ∈ alive) :
    (alive.filter fun t => decide (t ≠ s)).length < alive.length := by
  rw [List.length_filter_lt_length_iff_exists]
  exact ⟨s, hs, by simp⟩

theorem survivors_subset (geodesic : Point3f → Point3f → ℚ) (m : MyMesh) (r : ℚ)
    (pp : PoissonDiskParam) :
    ∀ s ∈ survivors geodesic m r pp, s ∈ candidatesFrom 0 m.vert := by
  intro s hs
  unfold survivors at hs
  simp only [] at hs
  split at hs
  · exact (pruneBestChoice_sublist _ _ _ _ _ _).subset hs
  · rcases pruneInOrder_subset _ _ _ _ _ _ s hs with h | h
    · simp at h
    · exact h

theorem foldl_AddVert (xs : List Sample) :
    ∀ m0 : MyMesh, xs.foldl (fun m s => MeshSampler.AddVert m s.pos) m0
      = { m0 with vert := m0.vert ++ xs.map Sample.pos, vn := m0.vn + xs.length } := by
  induction xs with
  | nil => intro m0; simp
  | cons x rest ih =>
    intro m0
    rw [List.foldl_cons, ih]
    have : m0.vn + 1 + rest.length = m0.vn + (rest.length + 1) := by omega
    simp only [MeshSampler.AddVert, List.map_cons, List.length_cons, List.append_assoc,
      List.singleton_append, this]

theorem poisson_disk_sample_eq (geodesic : MyMesh → Point3f → Point3f → ℚ) (v : MatrixV)
    (f : MatrixF) (r : ℚ) (ug bc : Bool) (hr : 0 < r) (hF : FacesInRange v.length f) :
    poisson_disk_sample geodesic v f r ug bc
      = .ok ((survivors (geodesic (builtMesh v f)) (builtMesh v f) r ⟨bc, ug⟩).map
          fun s => rowOfCoord s.pos) := by
  unfold poisson_disk_sample
  rw [vcg_mesh_from_vf_inRange v f hF]
  simp only [Outcome.bind, PoissonDiskPruning, if_neg (not_le.2 hr), foldl_AddVert, vcg_mesh_to_v,
    MyMesh.empty, List.nil_append, List.length_map, Nat.zero_add, if_true, List.map_map]
  rfl

theorem poisson_disk_sample_ok_inv (geodesic : MyMesh → Point3f → Point3f → ℚ) (v : MatrixV)
    (f : MatrixF) (r : ℚ) (ug bc : Bool) (rows : MatrixV)
    (h : poisson_disk_sample geodesic v f r ug bc = .ok rows) :
    0 < r ∧ FacesInRange v.length f
      ∧ rows = (survivors (geodesic (builtMesh v f)) (builtMesh v f) r ⟨bc, ug⟩).map
          fun s => rowOfCoord s.pos := by
  by_cases hF : FacesInRange v.length f
  · by_cases hr : 0 < r
    · rw [poisson_disk_sample_eq geodesic v f r ug bc hr hF] at h
      simp only [Outcome.ok.injEq] at h
      exact ⟨hr, hF, h.symm⟩
    · unfold poisson_disk_sample at h
      rw [vcg_mesh_from_vf_inRange v f hF] at h
      simp [Outcome.bind, PoissonDiskPruning, not_lt.1 hr] at h
  · unfold poisson_disk_sample at h
    have hu : vcg_mesh_from_vf v f MyMesh.empty = .undefined := by
      unfold vcg_mesh_from_vf
      simp only []
      rw [fillFaces_outOfRange _ _ _ _ _ hF]
      rfl
    rw [hu] at h
    simp [Outcome.bind] at h

theorem sq_lt_of_sqrt_lt (r d : ℚ) (h : Real.sqrt ((d : ℚ) : ℝ) < r) : 0 < r ∧ d < r * r := by
  have h0 : (0 : ℝ) ≤ Real.sqrt (d : ℝ) := Real.sqrt_nonneg _
  have hr' : (0 : ℝ) < r := lt_of_le_of_lt h0 h
  have hr : 0 < r := by exact_mod_cast hr'
  refine ⟨hr, ?_⟩
  have := (Real.sqrt_lt' hr').1 h
  have h2 : ((d : ℚ) : ℝ) < ((r * r : ℚ) : ℝ) := by
    push_cast
    simpa [sq] using this
  exact_mod_cast h2

theorem mem_stored_rows (v : MatrixV) (f : MatrixF) (s : Sample)
    (hs : s ∈ candidatesFrom 0 (builtMesh v f).vert) :
    rowOfCoord s.pos ∈ v.map fun x => rowOfCoord (coordOfRow x) := by
  have hpos : s.pos ∈ (candidatesFrom 0 (builtMesh v f).vert).map Sample.pos :=
    List.mem_map_of_mem _ hs
  rw [candidatesFrom_pos] at hpos
  obtain ⟨x, hx, hxs⟩ := List.mem_map.1 hpos
  exact List.mem_map.2 ⟨x, hx, by rw [hxs]⟩

/-! ### C1: minimum separation -/

theorem pruneInOrder_reject_all (geodesic : Point3f → Point3f → ℚ) (pp : PoissonDiskParam)
    (r : ℚ) (g : SpatialGrid Sample) :
    ∀ rest acc, (∀ s ∈ rest, ∃ t ∈ conflicting geodesic pp r g s, t ∈ acc) →
      pruneInOrder geodesic pp r g rest acc = acc := by
  intro rest
  induction rest with
  | nil => intro acc _; rfl
  | cons x rest ih =>
    intro acc h
    obtain ⟨t, ht, hta⟩ := h x (List.mem_cons_self _ _)
    have hany : (conflicting geodesic pp r g x).any (fun t => decide (t ∈ acc)) = true :=
      List.any_eq_true.2 ⟨t, ht, by simpa using hta⟩
    unfold pruneInOrder
    rw [if_pos hany]
    exact ih acc fun s hs => h s (List.mem_cons_of_mem _ hs)

theorem pruneInOrder_keep_all (geodesic : Point3f → Point3f → ℚ) (best : Bool) (r : ℚ)
    (g : SpatialGrid Sample) :
    ∀ rest acc, (∀ s ∈ rest, ∀ t ∈ acc ++ rest, t ≠ s → ¬ distSq s.pos t.pos < r * r) →
      pruneInOrder geodesic ⟨best, false⟩ r g rest acc = acc ++ rest := by
  intro rest
  induction rest with
  | nil => intro acc _; simp [pruneInOrder]
  | cons x rest ih =>
    intro acc h
    have hany : ¬ (conflicting geodesic ⟨best, false⟩ r g x).any (fun t => decide (t ∈ acc))
        = true := by
      rw [List.any_eq_true]
      rintro ⟨t, ht, hta⟩
      obtain ⟨hne, hd⟩ := of_mem_conflicting geodesic best g r x t ht
      simp only [decide_eq_true_eq] at hta
      exact h x (List.mem_cons_self _ _) t (List.mem_append_left _ hta) hne hd
    unfold pruneInOrder
    rw [if_neg hany, ih (acc ++ [x])]
    · simp
    · intro s hs t ht
      exact h s (List.mem_cons_of_mem _ hs) t (by simpa using ht)

theorem pruneBestChoice_all_close (geodesic : Point3f → Point3f → ℚ) (best : Bool) (m : MyMesh)
    (r : ℚ) (hr : 0 < r)
    (hclose : ∀ s ∈ candidatesFrom 0 m.vert, ∀ t ∈ candidatesFrom 0 m.vert,
      distSq s.pos t.pos < r * r) :
    ∀ fuel alive, alive ≠ [] → alive.length ≤ fuel → alive.Nodup →
      (∀ s ∈ alive, s ∈ candidatesFrom 0 m.vert) →
      ∃ s ∈ alive, pruneBestChoice geodesic ⟨best, false⟩ r (pruningGrid m r) fuel alive = [s] := by
  intro fuel
  induction fuel with
  | zero =>
    intro alive hne hlen
    exact absurd (List.length_eq_zero.1 (Nat.le_zero.1 hlen)) hne
  | succ fuel ih =>
    intro alive hne hlen hnd hsub
    unfold pruneBestChoice
    split
    · next hnone =>
      have hzero := selectForRemoval_none _ _ _ _ _ hnone
      match alive, hne, hnd, hsub, hzero with
      | [a], _, _, _, _ => exact ⟨a, List.mem_singleton_self a, rfl⟩
      | a :: b :: tl, _, hnd, hsub, hzero =>
        exfalso
        have hab : b ≠ a := by
          intro h
          have := (List.nodup_cons.1 hnd).1
          exact this (h ▸ List.mem_cons_self _ _)
        have ha : a ∈ a :: b :: tl := List.mem_cons_self _ _
        have hb : b ∈ a :: b :: tl := List.mem_cons_of_mem _ (List.mem_cons_self _ _)
        have hmem := mem_conflicting geodesic best m r hr a b (hsub b hb) hab
          (hclose a (hsub a ha) b (hsub b hb))
        have h0 := hzero a ha
        unfold conflictCount at h0
        rw [List.length_eq_zero, List.filter_eq_nil_iff] at h0
        exact h0 b hmem (by simp)
    · next s0 hsome =>
      have hs0 : s0 ∈ alive := selectForRemoval_some _ _ _ _ _ _ hsome
      have hpos : 0 < conflictCount geodesic ⟨best, false⟩ r (pruningGrid m r) alive s0 := by
        unfold selectForRemoval at hsome
        have := List.of_mem_filter (List.argmin_mem hsome)
        simpa using this
      obtain ⟨t, ht⟩ := List.exists_mem_of_length_pos hpos
      rw [List.mem_filter] at ht
      obtain ⟨htc, hta⟩ := ht
      simp only [decide_eq_true_eq] at hta
      obtain ⟨hts, _⟩ := of_mem_conflicting geodesic best _ r s0 t htc
      have hne' : (alive.filter fun t => decide (t ≠ s0)) ≠ [] := by
        intro h
        rw [List.filter_eq_nil_iff] at h
        exact h t hta (by simpa using hts)
      have hlen' := length_filter_ne_lt alive s0 hs0
      obtain ⟨s, hs, hres⟩ := ih _ hne' (by omega) (hnd.filter _)
        (fun s hs => hsub s (List.mem_of_mem_filter hs))
      exact ⟨s, List.mem_of_mem_filter hs, hres⟩

/-- When every two candidates are closer than the radius, one candidate survives. -/
theorem survivors_unique (geodesic : Point3f → Point3f → ℚ) (best : Bool) (m : MyMesh)
    (r : ℚ) (hr : 0 < r) (hne : m.vert ≠ [])
    (hclose : ∀ p ∈ m.vert, ∀ q ∈ m.vert, distSq p q < r * r) :
    ∃ s ∈ candidatesFrom 0 m.vert, survivors geodesic m r ⟨best, false⟩ = [s] := by
  have hpos : ∀ s ∈ candidatesFrom 0 m.vert, s.pos ∈ m.vert := by
    intro s hs
    have := List.mem_map_of_mem Sample.pos hs
    rwa [candidatesFrom_pos] at this
  have hclose' : ∀ s ∈ candidatesFrom 0 m.vert, ∀ t ∈ candidatesFrom 0 m.vert,
      distSq s.pos t.pos < r * r := fun s hs t ht => hclose _ (hpos s hs) _ (hpos t ht)
  have hcne : candidatesFrom 0 m.vert ≠ [] := by
    intro h
    have := candidatesFrom_length m.vert 0
    rw [h] at this
    exact hne (List.length_eq_zero.1 this.symm)
  unfold survivors
  simp only []
  split
  · exact pruneBestChoice_all_close geodesic best m r hr hclose' _ _ hcne le_rfl
      (candidatesFrom_nodup _ _) (fun s hs => hs)
  · have hnd := candidatesFrom_nodup m.vert 0
    generalize hc : candidatesFrom 0 m.vert = cands at hnd hclose' hcne
    match cands, hcne, hnd, hclose' with
    | s0 :: rest, _, hnd, hclose' =>
      refine ⟨s0, List.mem_cons_self _ _, ?_⟩
      have hfirst : ¬ (conflicting geodesic ⟨best, false⟩ r (pruningGrid m r) s0).any
          (fun t => decide (t ∈ ([] : List Sample))) = true := by
        simp
      unfold pruneInOrder
      rw [if_neg hfirst]
      apply pruneInOrder_reject_all
      intro s hs
      have hs' : s ∈ s0 :: rest := List.mem_cons_of_mem _ hs
      have hs0 : s0 ∈ s0 :: rest := List.mem_cons_self _ _
      have hne0 : s0 ≠ s := fun h => (List.nodup_cons.1 hnd).1 (h ▸ hs)
      refine ⟨s0, ?_, by simp⟩
      exact mem_conflicting geodesic best m r hr s s0 (hc ▸ hs0) hne0 (hclose' s hs' s0 hs0)

theorem survivors_keep_all (geodesic : Point3f → Point3f → ℚ) (m : MyMesh) (r : ℚ)
    (h : ∀ s ∈ candidatesFrom 0 m.vert, ∀ t ∈ candidatesFrom 0 m.vert, t ≠ s →
      ¬ distSq s.pos t.pos < r * r) :
    survivors geodesic m r ⟨false, false⟩ = candidatesFrom 0 m.vert := by
  unfold survivors
  simp only [Bool.false_eq_true, if_false]
  rw [pruneInOrder_keep_all geodesic false r _ _ [] (by simpa using h)]
  simp

theorem sqrt_lt_of_sq_lt (r d : ℚ) (hr : 0 < r) (h : d < r * r) :
    Real.sqrt ((d : ℚ) : ℝ) < r := by
  have hr' : (0 : ℝ) < r := by exact_mod_cast hr
  rw [Real.sqrt_lt' hr']
  have h2 : ((d : ℚ) : ℝ) < ((r * r : ℚ) : ℝ) := by exact_mod_cast h
  push_cast at h2
  simpa [sq] using h2

theorem facesInRange_nil (n : ℕ) : FacesInRange n [] := by
  intro r hr
  cases hr

theorem narrowToFloat_1024 : narrowToFloat 1024 = 1024 := by
  have hu : floatUnits 1024 1 = 2 ^ 159 := by
    rw [floatUnits_of_log _ _ 136 (by norm_num) (by norm_num) (by norm_num)]
    decide
  have hnum : (1024 : ℚ).num = 1024 := rfl
  have hden : (1024 : ℚ).den = 1 := rfl
  have habs : (1024 : ℤ).natAbs = 1024 := rfl
  unfold narrowToFloat
  rw [hnum, hden, habs, hu]
  norm_num

/-- Near 1024 the spacing of `float` values is `2^-13`: the double
`1025 + 2^-14 + 2^-40` lies above the midpoint of `1025` and `1025 + 2^-13` and
converts to `1025 + 2^-13`. -/
theorem narrowToFloat_near_1025 :
    narrowToFloat (1025 + 1 / 2 ^ 14 + 1 / 2 ^ 40) = 1025 + 1 / 2 ^ 13 := by
  have hx : (1025 + 1 / 2 ^ 14 + 1 / 2 ^ 40 : ℚ)
      = ((1025 * 2 ^ 40 + 2 ^ 26 + 1 : ℤ) : ℚ) / ((2 ^ 40 : ℤ) : ℚ) := by norm_num
  have hnum : (1025 + 1 / 2 ^ 14 + 1 / 2 ^ 40 : ℚ).num = 1025 * 2 ^ 40 + 2 ^ 26 + 1 := by
    rw [hx]
    exact Rat.num_div_eq_of_coprime (by decide) (by norm_num)
  have hden : (1025 + 1 / 2 ^ 14 + 1 / 2 ^ 40 : ℚ).den = 2 ^ 40 := by
    rw [hx]
    have := Rat.den_div_eq_of_coprime (a := 1025 * 2 ^ 40 + 2 ^ 26 + 1) (b := 2 ^ 40)
      (by decide) (by norm_num)
    exact_mod_cast this
  have hu : floatUnits (1025 * 2 ^ 40 + 2 ^ 26 + 1) (2 ^ 40)
      = (1025 * 2 ^ 13 + 1) * 2 ^ 136 := by
    rw [floatUnits_of_log _ _ 136 (by norm_num) (by norm_num) (by norm_num)]
    decide
  have habs : (1025 * 2 ^ 40 + 2 ^ 26 + 1 : ℤ).natAbs = 1025 * 2 ^ 40 + 2 ^ 26 + 1 := by decide
  unfold narrowToFloat
  rw [hnum, hden, habs, hu]
  norm_num

/-! ### C2: is the result made of input vertices? -/

/-- C2 (every returned row is a row of the input `v`, as the docstring of
`poisson_disk_sample` also promises) does not hold of the code: for the
one-vertex `double` array `[(1 + 2^-30, 0, 0)]` (no faces, radius 1)
`poisson_disk_sample` returns the row `(1, 0, 0)`, which is not a row of the
input. -/
theorem poisson_disk_sample_not_input_row :
    poisson_disk_sample (fun _ _ _ => 0) [(1 + 1 / 2 ^ 30, 0, 0)] [] 1 false false
        = .ok [(1, 0, 0)]
      ∧ ((1, 0, 0) : ℚ × ℚ × ℚ) ∉ ([(1 + 1 / 2 ^ 30, 0, 0)] : MatrixV) := by
  constructor
  · rw [poisson_disk_sample_eq _ _ _ _ _ _ (by norm_num) (facesInRange_nil _),
      survivors_keep_all]
    · simp only [builtMesh, List.map_cons, List.map_nil, coordOfRow_tiny, candidatesFrom,
        rowOfCoord]
    · intro s hs t ht hne
      simp only [builtMesh, List.map_cons, List.map_nil, candidatesFrom,
        List.mem_singleton] at hs ht
      exact absurd (ht.trans hs.symm) hne
  · norm_num

/-- What the code does guarantee about the origin of the rows, for an array
whose entries are within the range of `float`: every row returned by
`poisson_disk_sample` is the position the mesh stores for some row of the input
`v`, that is, a row of `v` converted to single precision, made of finite
single-precision values; for an array of single-precision values it is a row of
`v` itself.  The call returns when the radius is positive and the face indices
are in range. -/
theorem poisson_disk_sample_subset (geodesic : MyMesh → Point3f → Point3f → ℚ) (v : MatrixV)
    (f : MatrixF) (radius : ℚ) (use_geodesic_distance best_choice_sampling : Bool)
    (hV : AllInFloatRange v) :
    (0 < radius → FacesInRange v.length f → ∃ rows,
        poisson_disk_sample geodesic v f radius use_geodesic_distance best_choice_sampling
          = .ok rows)
      ∧ (∀ rows,
          poisson_disk_sample geodesic v f radius use_geodesic_distance best_choice_sampling
            = .ok rows →
          AllFloat rows ∧ ∀ r ∈ rows, r ∈ v.map fun x => rowOfCoord (coordOfRow x))
      ∧ (AllFloat v → ∀ rows,
          poisson_disk_sample geodesic v f radius use_geodesic_distance best_choice_sampling
            = .ok rows →
          ∀ r ∈ rows, r ∈ v) := by
  have key : ∀ rows,
      poisson_disk_sample geodesic v f radius use_geodesic_distance best_choice_sampling
        = .ok rows →
      ∀ r ∈ rows, r ∈ v.map fun x => rowOfCoord (coordOfRow x) := by
    intro rows hrows r hr
    obtain ⟨_, _, rfl⟩ := poisson_disk_sample_ok_inv geodesic v f radius _ _ rows hrows
    obtain ⟨s, hs, rfl⟩ := List.mem_map.1 hr
    exact mem_stored_rows v f s (survivors_subset _ _ _ _ s hs)
  refine ⟨fun hr hF => ⟨_, poisson_disk_sample_eq geodesic v f radius _ _ hr hF⟩,
    fun rows hrows => ⟨fun r hr => allFloat_stored_rows v hV r (key rows hrows r hr),
      key rows hrows⟩, ?_⟩
  intro hfl rows hrows r hr
  have := key rows hrows r hr
  rwa [map_row_of_allFloat v hfl] at this

/-- The subset property at a concrete single-precision input: a segment sampled
with radius 2 gives rows, and they are rows of the input. -/
theorem poisson_disk_sample_subset_witness :
    ∃ rows, poisson_disk_sample (fun _ _ _ => 0) [(0, 0, 0), (1, 0, 0)] [] 2 false false
        = .ok rows
      ∧ ∀ r ∈ rows, r ∈ ([(0, 0, 0), (1, 0, 0)] : MatrixV) :=
  have hfl : AllFloat [(0, 0, 0), (1, 0, 0)] := by
    intro r hr
    simp only [List.mem_cons, List.mem_singleton, List.not_mem_nil, or_false] at hr
    rcases hr with rfl | rfl
    · exact ⟨isFloat_zero, isFloat_zero, isFloat_zero⟩
    · exact ⟨isFloat_one, isFloat_zero, isFloat_zero⟩
  ((poisson_disk_sample_subset (fun _ _ _ => 0) [(0, 0, 0), (1, 0, 0)] [] 2 false false
      (allInFloatRange_of_allFloat _ hfl)).1 (by norm_num) (facesInRange_nil _)).elim
    fun rows hrows =>
      ⟨rows, hrows,
        (poisson_disk_sample_subset (fun _ _ _ => 0) [(0, 0, 0), (1, 0, 0)] [] 2 false false
          (allInFloatRange_of_allFloat _ hfl)).2.2 hfl rows hrows⟩

/-! ### C3: a radius larger than the cloud -/

/-- C3 (exactly one point when the radius exceeds the largest distance between
two points of the cloud) does not hold of the code: the two-point `double`
cloud `(1024, 0, 0)`, `(1025 + 2^-14 + 2^-40, 0, 0)`, whose entries are within
the range of `float`, has largest distance `1 + 2^-14 + 2^-40`, smaller than
the radius `1 + 2^-14 + 2^-23`; yet `poisson_disk_sample` returns two points.
The mesh stores the second point as `(1025 + 2^-13, 0, 0)`, which is not a row
of the input and lies at distance `1 + 2^-13 > radius` from the first. -/
theorem poisson_disk_sample_two_survive :
    AllInFloatRange [(1024, 0, 0), (1025 + 1 / 2 ^ 14 + 1 / 2 ^ 40, 0, 0)]
      ∧ (∀ p ∈ ([(1024, 0, 0), (1025 + 1 / 2 ^ 14 + 1 / 2 ^ 40, 0, 0)] : MatrixV),
        ∀ q ∈ ([(1024, 0, 0), (1025 + 1 / 2 ^ 14 + 1 / 2 ^ 40, 0, 0)] : MatrixV),
          Real.sqrt ((rowDistSq p q : ℚ) : ℝ) < ((1 + 1 / 2 ^ 14 + 1 / 2 ^ 23 : ℚ) : ℝ))
      ∧ poisson_disk_sample (fun _ _ _ => 0)
          [(1024, 0, 0), (1025 + 1 / 2 ^ 14 + 1 / 2 ^ 40, 0, 0)] []
          (1 + 1 / 2 ^ 14 + 1 / 2 ^ 23) false false
        = .ok [(1024, 0, 0), (1025 + 1 / 2 ^ 13, 0, 0)]
      ∧ ((1025 + 1 / 2 ^ 13, 0, 0) : ℚ × ℚ × ℚ)
          ∉ ([(1024, 0, 0), (1025 + 1 / 2 ^ 14 + 1 / 2 ^ 40, 0, 0)] : MatrixV) := by
  have ha : coordOfRow (1024, 0, 0) = ⟨1024, 0, 0⟩ := by
    simp only [coordOfRow, narrowToFloat_zero, narrowToFloat_1024]
  have hb : coordOfRow (1025 + 1 / 2 ^ 14 + 1 / 2 ^ 40, 0, 0) = ⟨1025 + 1 / 2 ^ 13, 0, 0⟩ := by
    simp only [coordOfRow, narrowToFloat_zero, narrowToFloat_near_1025]
  refine ⟨?_, ?_, ?_, ?_⟩
  · intro r hr
    simp only [List.mem_cons, List.mem_singleton, List.not_mem_nil, or_false] at hr
    rcases hr with rfl | rfl
    · exact ⟨inFloatRange_of_bounds _ (by norm_num) (by norm_num), inFloatRange_zero,
        inFloatRange_zero⟩
    · exact ⟨inFloatRange_of_bounds _ (by norm_num) (by norm_num), inFloatRange_zero,
        inFloatRange_zero⟩
  · intro p hp q hq
    simp only [List.mem_cons, List.mem_singleton, List.not_mem_nil, or_false] at hp hq
    rcases hp with rfl | rfl <;> rcases hq with rfl | rfl <;>
      exact sqrt_lt_of_sq_lt _ _ (by norm_num) (by norm_num [rowDistSq])
  · rw [poisson_disk_sample_eq _ _ _ _ _ _ (by norm_num) (facesInRange_nil _),
      survivors_keep_all]
    · simp only [builtMesh, List.map_cons, List.map_nil, ha, hb, candidatesFrom, rowOfCoord]
    · intro s hs t ht hne
      simp only [builtMesh, List.map_cons, List.map_nil, ha, hb, candidatesFrom, List.mem_cons,
        List.mem_singleton, List.not_mem_nil, or_false] at hs ht
      rcases hs with rfl | rfl <;> rcases ht with rfl | rfl
      · exact absurd rfl hne
      · norm_num [distSq]
      · norm_num [distSq]
      · exact absurd rfl hne
  · norm_num

/-- What the code does guarantee when the radius exceeds every distance: for a
non-empty point cloud whose entries are within the range of `float`, passed
with no faces, and a radius strictly greater than the largest distance between
two of the positions the mesh stores for its points (the points converted to
single precision), `poisson_disk_sample` with the Euclidean metric returns
exactly one point, the stored position of one of the input points.  For a cloud
of single-precision values the stored positions are the input points. -/
theorem poisson_disk_sample_single (geodesic : MyMesh → Point3f → Point3f → ℚ) (v : MatrixV)
    (radius : ℚ) (best_choice_sampling : Bool) (hv : v ≠ []) (hV : AllInFloatRange v)
    (hfar : ∀ p ∈ v.map coordOfRow, ∀ q ∈ v.map coordOfRow,
      Real.sqrt ((distSq p q : ℚ) : ℝ) < (radius : ℝ)) :
    (∃ row ∈ v.map fun x => rowOfCoord (coordOfRow x),
        (IsFloat row.1 ∧ IsFloat row.2.1 ∧ IsFloat row.2.2)
          ∧ poisson_disk_sample geodesic v [] radius false best_choice_sampling = .ok [row])
      ∧ (AllFloat v → v.map coordOfRow = v.map fun r => ⟨r.1, r.2.1, r.2.2⟩) := by
  refine ⟨?_, map_coordOfRow_of_allFloat v⟩
  obtain ⟨x0, rest, rfl⟩ := List.exists_cons_of_ne_nil hv
  have hx0 : coordOfRow x0 ∈ (x0 :: rest).map coordOfRow := List.mem_map_of_mem _
    (List.mem_cons_self _ _)
  have hr : 0 < radius := (sq_lt_of_sqrt_lt radius _ (hfar _ hx0 _ hx0)).1
  have hclose : ∀ p ∈ (builtMesh (x0 :: rest) []).vert, ∀ q ∈ (builtMesh (x0 :: rest) []).vert,
      distSq p q < radius * radius :=
    fun p hp q hq => (sq_lt_of_sqrt_lt radius _ (hfar p hp q hq)).2
  obtain ⟨s, hs, hsurv⟩ := survivors_unique (geodesic (builtMesh (x0 :: rest) []))
    best_choice_sampling (builtMesh (x0 :: rest) []) radius hr (by simp [builtMesh]) hclose
  refine ⟨rowOfCoord s.pos, mem_stored_rows _ _ s hs,
    allFloat_stored_rows _ hV _ (mem_stored_rows _ _ s hs), ?_⟩
  rw [poisson_disk_sample_eq geodesic _ _ radius false _ hr (facesInRange_nil _), hsurv]
  rfl

/-- The 8 corners of the unit cube with radius 2, larger than the space
diagonal: exactly one corner is returned. -/
theorem poisson_disk_sample_single_witness :
    ∃ row ∈ ([(0, 0, 0), (1, 0, 0), (0, 1, 0), (1, 1, 0), (0, 0, 1), (1, 0, 1), (0, 1, 1),
        (1, 1, 1)] : MatrixV).map fun x => rowOfCoord (coordOfRow x),
      poisson_disk_sample (fun _ _ _ => 0) [(0, 0, 0), (1, 0, 0), (0, 1, 0), (1, 1, 0),
        (0, 0, 1), (1, 0, 1), (0, 1, 1), (1, 1, 1)] [] 2 false false = .ok [row] :=
  ((poisson_disk_sample_single (fun _ _ _ => 0) [(0, 0, 0), (1, 0, 0), (0, 1, 0), (1, 1, 0),
    (0, 0, 1), (1, 0, 1), (0, 1, 1), (1, 1, 1)] 2 false (by simp) (by
      intro r hr
      simp only [List.mem_cons, List.mem_singleton, List.not_mem_nil, or_false] at hr
      rcases hr with rfl | rfl | rfl | rfl | rfl | rfl | rfl | rfl <;>
        exact ⟨inFloatRange_of_bounds _ (by norm_num) (by norm_num),
          inFloatRange_of_bounds _ (by norm_num) (by norm_num),
          inFloatRange_of_bounds _ (by norm_num) (by norm_num)⟩) (by
      intro p hp q hq
      simp only [List.map_cons, List.map_nil, coordOfRow, narrowToFloat_zero, narrowToFloat_one,
        List.mem_cons, List.mem_singleton, List.not_mem_nil, or_false] at hp hq
      rcases hp with rfl | rfl | rfl | rfl | rfl | rfl | rfl | rfl <;>
        rcases hq with rfl | rfl | rfl | rfl | rfl | rfl | rfl | rfl <;>
        exact sqrt_lt_of_sq_lt _ _ (by norm_num) (by norm_num [distSq]))).1).elim
    fun row h => ⟨row, h.1, h.2.2⟩

/-! ### C10: non-positive sizes -/

theorem drawDistinct_spec (rng : ℕ → ℕ) :
    ∀ (count k : ℕ) (pool : List ℕ), pool.Nodup →
      (drawDistinct rng count k pool).Nodup
        ∧ (∀ i ∈ drawDistinct rng count k pool, i ∈ pool)
        ∧ (drawDistinct rng count k pool).length = min count pool.length := by
  intro count
  induction count with
  | zero => intro k pool _; simp [drawDistinct]
  | succ count ih =>
    intro k pool hnd
    cases pool with
    | nil => simp [drawDistinct]
    | cons a tl =>
      simp only [drawDistinct]
      have hlt : rng k % (a :: tl).length < (a :: tl).length :=
        Nat.mod_lt _ (by simp)
      have hx : (a :: tl).getD (rng k % (a :: tl).length) a ∈ a :: tl := by
        rw [List.getD_eq_getElem _ _ hlt]
        exact List.getElem_mem _
      generalize (a :: tl).getD (rng k % (a :: tl).length) a = x at hx
      obtain ⟨h1, h2, h3⟩ := ih (k + 1) ((a :: tl).erase x) (hnd.erase x)
      refine ⟨?_, ?_, ?_⟩
      · rw [List.nodup_cons]
        exact ⟨fun h => (hnd.not_mem_erase) (h2 x h), h1⟩
      · intro i hi
        rcases List.mem_cons.1 hi with rfl | hi
        · exact hx
        · exact List.mem_of_mem_erase (h2 i hi)
      · rw [List.length_cons, h3, List.length_erase_of_mem hx]
        simp only [List.length_cons, Nat.add_sub_cancel]
        omega

theorem foldl_AddVert_map {γ : Type} (pos : γ → Point3f) (xs : List γ) :
    ∀ m0 : MyMesh, xs.foldl (fun m x => MeshSampler.AddVert m (pos x)) m0
      = { m0 with vert := m0.vert ++ xs.map pos, vn := m0.vn + xs.length } := by
  induction xs with
  | nil => intro m0; simp
  | cons x rest ih =>
    intro m0
    rw [List.foldl_cons, ih]
    have : m0.vn + 1 + rest.length = m0.vn + (rest.length + 1) := by omega
    simp only [MeshSampler.AddVert, List.map_cons, List.length_cons, List.append_assoc,
      List.singleton_append, this]

theorem random_sample_eq (rng : ℕ → ℕ) (v : MatrixV) (f : MatrixF) (n : ℤ)
    (hF : FacesInRange v.length f) :
    random_sample rng v f n
      = .ok ((sampledIndices rng v.length n).map fun i =>
          rowOfCoord (coordOfRow (v.getD i (0, 0, 0)))) := by
  unfold random_sample
  rw [vcg_mesh_from_vf_inRange v f hF]
  simp only [Outcome.bind, VertexUniform, List.length_map]
  rw [foldl_AddVert_map]
  simp only [vcg_mesh_to_v, MyMesh.empty, List.nil_append, List.length_map, Nat.zero_add,
    if_true, List.map_map]
  congr 1
  apply List.map_congr_left
  intro i _
  simp only [Function.comp]
  rw [← coordOfRow_zero_zero_zero, List.getD_map]

theorem sampledIndices_spec (rng : ℕ → ℕ) (N : ℕ) (n : ℤ) (h0 : 0 ≤ n) (hN : n ≤ N) :
    (sampledIndices rng N n).Nodup ∧ ((sampledIndices rng N n).length : ℤ) = n
      ∧ ∀ i ∈ sampledIndices rng N n, i < N := by
  unfold sampledIndices
  rw [if_pos hN]
  obtain ⟨h1, h2, h3⟩ := drawDistinct_spec rng n.toNat 0 (List.range N) (List.nodup_range N)
  refine ⟨h1, ?_, fun i hi => List.mem_range.1 (h2 i hi)⟩
  rw [h3, List.length_range]
  have : n.toNat ≤ N := by omega
  rw [min_eq_left this]
  exact Int.toNat_of_nonneg h0

theorem mem_getD_of_lt (v : MatrixV) (i : ℕ) (h : i < v.length) : v.getD i (0, 0, 0) ∈ v := by
  rw [List.getD_eq_getElem _ _ h]
  exact List.getElem_mem _

/-- The rows `random_sample` exports for in-range indices of an array within
the range of `float` are finite single-precision values. -/
theorem allFloat_sampled_rows (v : MatrixV) (hV : AllInFloatRange v) (idxs : List ℕ)
    (h : ∀ i ∈ idxs, i < v.length) :
    AllFloat (idxs.map fun i => rowOfCoord (coordOfRow (v.getD i (0, 0, 0)))) := by
  intro r hr
  obtain ⟨i, hi, rfl⟩ := List.mem_map.1 hr
  exact isFloat_coordOfRow _ (hV _ (mem_getD_of_lt v i (h i hi)))

theorem allFloat_triangle : AllFloat [(0, 0, 0), (1, 0, 0), (0, 1, 0)] := by
  intro r hr
  simp only [List.mem_cons, List.mem_singleton, List.not_mem_nil, or_false] at hr
  rcases hr with rfl | rfl | rfl
  · exact ⟨isFloat_zero, isFloat_zero, isFloat_zero⟩
  · exact ⟨isFloat_one, isFloat_zero, isFloat_zero⟩
  · exact ⟨isFloat_zero, isFloat_one, isFloat_zero⟩

theorem facesInRange_triangle : FacesInRange 3 [(0, 1, 2)] := by
  intro r hr
  simp only [List.mem_singleton] at hr
  subst hr
  simp

/-! ### C8: sampling without replacement -/

/-- C8, as stated, fails: for the one-vertex `double` array `[(1 + 2^-30, 0, 0)]`
and `num_samples = 1`, `random_sample` returns the row `(1, 0, 0)`, which is
not the position of an input vertex. -/
theorem random_sample_not_input_row :
    random_sample (fun _ => 0) [(1 + 1 / 2 ^ 30, 0, 0)] [] 1 = .ok [(1, 0, 0)]
      ∧ ((1, 0, 0) : ℚ × ℚ × ℚ) ∉ ([(1 + 1 / 2 ^ 30, 0, 0)] : MatrixV) := by
  constructor
  · rw [random_sample_eq _ _ _ _ (facesInRange_nil _)]
    have hidx : sampledIndices (fun _ => 0) 1 1 = [0] := by
      simp [sampledIndices, drawDistinct, List.range_succ]
    simp only [List.length_singleton, hidx, List.map_cons, List.map_nil, List.getD_cons_zero,
      coordOfRow_tiny, rowOfCoord]
  · norm_num

/-- C8, amended: for a mesh with `N` vertices whose coordinates are within the
range of `float` (face indices in range) and `0 <= num_samples <= N`,
`random_sample` returns exactly `num_samples` rows, drawn from pairwise
distinct vertex indices, each row the position the mesh stores for that vertex
(the input row converted to single precision, made of finite single-precision
values); for an array of single-precision values each row is the input row
itself. -/
theorem random_sample_distinct (rng : ℕ → ℕ) (v : MatrixV) (f : MatrixF) (num_samples : ℤ)
    (h0 : 0 ≤ num_samples) (hN : num_samples ≤ v.length) (hF : FacesInRange v.length f)
    (hV : AllInFloatRange v) :
    ∃ idxs : List ℕ, idxs.Nodup ∧ (idxs.length : ℤ) = num_samples
      ∧ (∀ i ∈ idxs, i < v.length)
      ∧ random_sample rng v f num_samples
        = .ok (idxs.map fun i => rowOfCoord (coordOfRow (v.getD i (0, 0, 0))))
      ∧ AllFloat (idxs.map fun i => rowOfCoord (coordOfRow (v.getD i (0, 0, 0))))
      ∧ (AllFloat v →
        random_sample rng v f num_samples = .ok (idxs.map fun i => v.getD i (0, 0, 0))) := by
  obtain ⟨h1, h2, h3⟩ := sampledIndices_spec rng v.length num_samples h0 hN
  refine ⟨sampledIndices rng v.length num_samples, h1, h2, h3, random_sample_eq rng v f _ hF,
    allFloat_sampled_rows v hV _ h3, ?_⟩
  intro hfl
  rw [random_sample_eq rng v f _ hF]
  congr 1
  apply List.map_congr_left
  intro i hi
  apply rowOfCoord_coordOfRow
  apply hfl
  exact mem_getD_of_lt v i (h3 i hi)

/-- C8 at a concrete mesh: two of the three vertices of a triangle. -/
theorem random_sample_distinct_witness :
    AllInFloatRange [(0, 0, 0), (1, 0, 0), (0, 1, 0)]
      ∧ ∃ idxs : List ℕ, idxs.Nodup ∧ (idxs.length : ℤ) = 2
        ∧ (∀ i ∈ idxs, i < 3)
        ∧ random_sample (fun k => 7 * k + 3) [(0, 0, 0), (1, 0, 0), (0, 1, 0)] [(0, 1, 2)] 2
          = .ok (idxs.map fun i =>
            ([(0, 0, 0), (1, 0, 0), (0, 1, 0)] : MatrixV).getD i (0, 0, 0)) :=
  ⟨allInFloatRange_of_allFloat _ allFloat_triangle,
    (random_sample_distinct (fun k => 7 * k + 3) [(0, 0, 0), (1, 0, 0), (0, 1, 0)] [(0, 1, 2)] 2
      (by norm_num) (by norm_num) facesInRange_triangle
      (allInFloatRange_of_allFloat _ allFloat_triangle)).elim
        fun idxs h => ⟨idxs, h.1, h.2.1, h.2.2.1, h.2.2.2.2.2 allFloat_triangle⟩⟩

/-! ### C7: sampling every vertex -/

end PCU
